import Mathlib

/-!
Shallow embedding of the buffer-layout planner in
brainstorm/structure/layout.py, together with proofs of its stated
properties.  Pure Python functions become Lean functions; numpy 0/1
matrices become row-major lists of natural-number rows; Python
exceptions become an explicit error type; the two unbounded loops
(the forward-closure fixed point and the hub-grouping loop) take an
explicit fuel argument whose adequacy is proved.
-/

/-- Canonical dotted endpoint path, e.g. "layerA.outputs.y".  (The name
Path itself is taken by Mathlib.) -/
abbrev NodePath := String

/-- One entry of a hub's source list before row permutation: the Python
code keeps plain endpoint paths (strings) and forced-order tuples of
paths mixed in one list, and distinguishes them by type. -/
inductive Item where
  | single (p : NodePath)
  | group (ps : List NodePath)
deriving DecidableEq

/-- The leaf endpoint paths of one source entry, in declared order. -/
def Item.paths : Item → List NodePath
  | .single p => [p]
  | .group ps => ps

/-- Modelled from the spec: brainstorm.utils.flatten (not part of the
analyzed source) expands nested tuples into the flat list of leaf
endpoint paths, each forced-order group expanding to its members in
declared order. -/
def flatten (l : List Item) : List NodePath := l.flatMap Item.paths

/-- Absolute difference of two naturals; models np.abs of a difference
of table entries. -/
def absDiff (a b : Nat) : Nat := (a - b) + (b - a)

/-- Total absolute change along a column padded with one zero above and
below: chg p l sums the absolute differences between consecutive
entries of p :: l ++ [0].  chg 0 col is the per-column value of
np.abs(np.diff(padded, axis=0)).sum(axis=0) in
Hub.can_be_connected_with_single_buffer. -/
def chg : Nat → List Nat → Nat
  | p, [] => absDiff p 0
  | p, a :: t => absDiff p a + chg a t

/-- Column j of a row-major connection table; positions beyond a row's
length read as the zeros numpy padding would supply. -/
def column (ct : List (List Nat)) (j : Nat) : List Nat :=
  ct.map (fun r => r.getD j 0)

/-- Hub.can_be_connected_with_single_buffer: in every column of the
table, after padding with one zero row above and below, the summed
absolute change between adjacent rows is at most 2.  A numpy array
carries its column count with it; here it is passed explicitly. -/
def can_be_connected_with_single_buffer (ct : List (List Nat)) (ncols : Nat) : Bool :=
  (List.range ncols).all (fun j => decide (chg 0 (column ct j) ≤ 2))

/-- The ones of a 0/1 column form at most one contiguous run of rows
(possibly empty, possibly touching either boundary). -/
def ones_in_one_run (l : List Nat) : Prop :=
  ∃ a b, ∀ i, i < l.length → (l.getD i 0 = 1 ↔ a ≤ i ∧ i < b)

/-! Lemmas about chg and the consecutive-ones characterization. -/

theorem chg_replicate_zero (n p : Nat) : chg p (List.replicate n 0) = p := by
  induction n generalizing p with
  | zero => simp [chg, absDiff]
  | succ n ih => simp [List.replicate_succ, chg, absDiff, ih]

theorem chg_zero_cons_zero (t : List Nat) : chg 0 (0 :: t) = chg 0 t := by
  simp [chg, absDiff]

theorem chg_one_cons_one (t : List Nat) : chg 1 (1 :: t) = chg 1 t := by
  simp [chg, absDiff]

theorem chg_rep_one_append (n : Nat) (rest : List Nat) :
    chg 1 (List.replicate n 1 ++ rest) = chg 1 rest := by
  induction n with
  | zero => simp
  | succ n ih => simpa [List.replicate_succ, chg, absDiff] using ih

theorem chg_rep_zero_append (n : Nat) (rest : List Nat) :
    chg 0 (List.replicate n 0 ++ rest) = chg 0 rest := by
  induction n with
  | zero => simp
  | succ n ih => simpa [List.replicate_succ, chg, absDiff] using ih

/-- Zero total change from state 0 forces an all-zero column. -/
theorem zeros_of_chg_zero (t : List Nat) (hb : ∀ x ∈ t, x ≤ 1)
    (h : chg 0 t = 0) : t = List.replicate t.length 0 := by
  induction t with
  | nil => rfl
  | cons a t ih =>
    have ha : a ≤ 1 := hb a (by simp)
    interval_cases a
    · rw [chg_zero_cons_zero] at h
      rw [ih (fun x hx => hb x (by simp [hx])) h]
      simp [List.replicate_succ]
    · simp [chg, absDiff] at h

/-- Change at most 1 from state 1 forces a block of ones followed by
zeros. -/
theorem ones_zeros_of_chg_le_one (t : List Nat) (hb : ∀ x ∈ t, x ≤ 1)
    (h : chg 1 t ≤ 1) :
    ∃ q r, t = List.replicate q 1 ++ List.replicate r 0 := by
  induction t with
  | nil => exact ⟨0, 0, rfl⟩
  | cons a t ih =>
    have ha : a ≤ 1 := hb a (by simp)
    interval_cases a
    · have h0 : chg 0 t = 0 := by
        simp only [chg, absDiff] at h; omega
      refine ⟨0, t.length + 1, ?_⟩
      rw [zeros_of_chg_zero t (fun x hx => hb x (by simp [hx])) h0]
      simp [List.replicate_succ]
    · rw [chg_one_cons_one] at h
      obtain ⟨q, r, hqr⟩ := ih (fun x hx => hb x (by simp [hx])) h
      exact ⟨q + 1, r, by simp [hqr, List.replicate_succ]⟩

/-- Change at most 2 from the zero padding forces a zeros-ones-zeros
shape. -/
theorem form_of_chg_le_two (l : List Nat) (hb : ∀ x ∈ l, x ≤ 1)
    (h : chg 0 l ≤ 2) :
    ∃ p q r, l = List.replicate p 0 ++ List.replicate q 1 ++ List.replicate r 0 := by
  induction l with
  | nil => exact ⟨0, 0, 0, rfl⟩
  | cons a t ih =>
    have ha : a ≤ 1 := hb a (by simp)
    interval_cases a
    · rw [chg_zero_cons_zero] at h
      obtain ⟨p, q, r, hf⟩ := ih (fun x hx => hb x (by simp [hx])) h
      exact ⟨p + 1, q, r, by simp [hf, List.replicate_succ]⟩
    · have h1 : chg 1 t ≤ 1 := by
        simp only [chg, absDiff] at h; omega
      obtain ⟨q, r, hqr⟩ := ones_zeros_of_chg_le_one t
        (fun x hx => hb x (by simp [hx])) h1
      exact ⟨0, q + 1, r, by simp [hqr, List.replicate_succ]⟩

/-- A zeros-ones-zeros column has change at most 2. -/
theorem chg_le_two_of_form (p q r : Nat) :
    chg 0 (List.replicate p 0 ++ List.replicate q 1 ++ List.replicate r 0) ≤ 2 := by
  rw [List.append_assoc, chg_rep_zero_append]
  cases q with
  | zero => simp [chg_replicate_zero]
  | succ q =>
    rw [List.replicate_succ, List.cons_append]
    simp only [chg, absDiff]
    rw [chg_rep_one_append, chg_replicate_zero]

theorem getD_replicate_lt {α : Type} {x d : α} {n i : Nat} (h : i < n) :
    (List.replicate n x).getD i d = x := by
  rw [List.getD_eq_getElem _ _ (by simpa using h)]
  simp

theorem getD_replicate_ge {α : Type} {x d : α} {n i : Nat} (h : n ≤ i) :
    (List.replicate n x).getD i d = d := by
  apply List.getD_eq_default
  simpa using h

theorem getD_replicate_self {α : Type} {x : α} {n i : Nat} : (List.replicate n x).getD i x = x := by
  by_cases h : i < n
  · exact getD_replicate_lt h
  · exact getD_replicate_ge (by omega)

/-- Pointwise value of a zeros-ones-zeros column. -/
theorem form_getD (p q r i : Nat) :
    (List.replicate p 0 ++ List.replicate q 1 ++ List.replicate r 0).getD i 0 =
      if p ≤ i ∧ i < p + q then 1 else 0 := by
  rw [List.append_assoc]
  by_cases h1 : i < p
  · rw [List.getD_append _ _ _ _ (by simpa using h1), getD_replicate_lt h1,
      if_neg (by omega)]
  · rw [List.getD_append_right _ _ _ _ (by simp; omega)]
    simp only [List.length_replicate]
    by_cases h2 : i < p + q
    · rw [List.getD_append _ _ _ _ (by simp; omega), getD_replicate_lt (by omega),
        if_pos (by omega)]
    · rw [List.getD_append_right _ _ _ _ (by simp; omega), List.length_replicate,
        getD_replicate_self, if_neg (by omega)]

/-- A zeros-ones-zeros column has its ones in one run. -/
theorem onerun_of_form (p q r : Nat) :
    ones_in_one_run (List.replicate p 0 ++ List.replicate q 1 ++ List.replicate r 0) := by
  refine ⟨p, p + q, fun i hi => ?_⟩
  rw [form_getD]
  split
  · omega
  · omega

/-- A binary column whose ones lie in one run is zeros-ones-zeros. -/
theorem form_of_spec (l : List Nat) (a b : Nat) (hb : ∀ x ∈ l, x ≤ 1)
    (hs : ∀ i, i < l.length → (l.getD i 0 = 1 ↔ a ≤ i ∧ i < b)) :
    ∃ p q r, l = List.replicate p 0 ++ List.replicate q 1 ++ List.replicate r 0 := by
  induction l generalizing a b with
  | nil => exact ⟨0, 0, 0, rfl⟩
  | cons x t ih =>
    have hx : x ≤ 1 := hb x (by simp)
    have hst : ∀ i, i < t.length → (t.getD i 0 = 1 ↔ a - 1 ≤ i ∧ i < b - 1) := by
      intro i hi
      have h := hs (i + 1) (by simpa using Nat.succ_lt_succ hi)
      rw [List.getD_cons_succ] at h
      rw [h]
      omega
    obtain ⟨p, q, r, hf⟩ := ih (a - 1) (b - 1) (fun y hy => hb y (by simp [hy])) hst
    interval_cases x
    · exact ⟨p + 1, q, r, by simp [hf, List.replicate_succ]⟩
    · have h0 := (hs 0 (by simp)).mp (by simp)
      have hpq : p = 0 ∨ q = 0 := by
        by_contra hc
        push_neg at hc
        obtain ⟨hp, hq⟩ := hc
        have ht0 : t.getD 0 0 = 0 := by
          rw [hf, form_getD, if_neg (by omega)]
        have htp : t.getD p 0 = 1 := by
          rw [hf, form_getD, if_pos (by omega)]
        have e0 := hst 0 (by rw [hf]; simp; omega)
        have ep := hst p (by rw [hf]; simp; omega)
        rw [ht0] at e0
        rw [htp] at ep
        omega
      rcases hpq with hp | hq
      · subst hp
        exact ⟨0, q + 1, r, by simp [hf, List.replicate_succ]⟩
      · subst hq
        refine ⟨0, 1, p + r, ?_⟩
        rw [hf, List.replicate_add]
        simp

/-- Per-column equivalence: padded change at most 2 iff the ones form at
most one contiguous run. -/
theorem chg_le_two_iff_onerun (l : List Nat) (hb : ∀ x ∈ l, x ≤ 1) :
    chg 0 l ≤ 2 ↔ ones_in_one_run l := by
  constructor
  · intro h
    obtain ⟨p, q, r, hf⟩ := form_of_chg_le_two l hb h
    rw [hf]
    exact onerun_of_form p q r
  · rintro ⟨a, b, hs⟩
    obtain ⟨p, q, r, hf⟩ := form_of_spec l a b hb hs
    rw [hf]
    exact chg_le_two_of_form p q r

theorem col_binary (ct : List (List Nat)) (j : Nat)
    (hbin : ∀ row ∈ ct, ∀ x ∈ row, x ≤ 1) : ∀ x ∈ column ct j, x ≤ 1 := by
  intro x hx
  simp only [column, List.mem_map] at hx
  obtain ⟨r, hr, rfl⟩ := hx
  by_cases h : j < r.length
  · rw [List.getD_eq_getElem _ _ h]
    exact hbin r hr _ (List.getElem_mem h)
  · rw [List.getD_eq_default _ _ (by omega)]
    omega

/-- C4: for every 0/1 matrix, Hub.can_be_connected_with_single_buffer
returns true iff in every column the ones form at most one contiguous
run of rows (possibly empty, possibly touching either boundary);
equivalently, the padded per-column change count is at most 2 (which is
the definition used by the code). -/
theorem claim_C4_can_be_connected_iff (ct : List (List Nat)) (ncols : Nat)
    (hbin : ∀ row ∈ ct, ∀ x ∈ row, x ≤ 1) :
    can_be_connected_with_single_buffer ct ncols = true ↔
      ∀ j, j < ncols → ones_in_one_run (column ct j) := by
  unfold can_be_connected_with_single_buffer
  simp only [List.all_eq_true, List.mem_range, decide_eq_true_eq]
  constructor
  · intro h j hj
    exact (chg_le_two_iff_onerun _ (col_binary ct j hbin)).mp (h j hj)
  · intro h j hj
    exact (chg_le_two_iff_onerun _ (col_binary ct j hbin)).mpr (h j hj)

/-- Witness for C4 at a concrete 3x2 table. -/
theorem claim_C4_witness :
    (∀ row ∈ ([[1, 0], [1, 1], [0, 1]] : List (List Nat)), ∀ x ∈ row, x ≤ 1) ∧
    (can_be_connected_with_single_buffer ([[1, 0], [1, 1], [0, 1]] : List (List Nat)) 2 = true ↔
      ∀ j, j < 2 → ones_in_one_run (column ([[1, 0], [1, 1], [0, 1]] : List (List Nat)) j)) :=
  ⟨by decide, claim_C4_can_be_connected_iff _ _ (by decide)⟩


/-! The connection table: Hub.set_up_connection_table. -/

/-- Entry (r, c) of a row-major table (reading 0 outside it). -/
def entry (ct : List (List Nat)) (r c : Nat) : Nat := (ct.getD r []).getD c 0

/-- Write v at row r, column c of a table (numpy item assignment). -/
def set2d (ct : List (List Nat)) (r c v : Nat) : List (List Nat) :=
  ct.set r ((ct.getD r []).set c v)

/-- np.zeros((nrows, ncols)). -/
def zeros (nrows ncols : Nat) : List (List Nat) :=
  List.replicate nrows (List.replicate ncols 0)

/-- One step of the loop in Hub.set_up_connection_table: a declared
connection sets entry 1 only when its flat producer path is itself an
element of the (unflattened) source entry list and its consumer path an
element of the sink list; the row is looked up in the flattened source
list, the column in the sink list. -/
def ct_update (sources sinks : List Item) (ct : List (List Nat))
    (c : NodePath × NodePath) : List (List Nat) :=
  if Item.single c.1 ∈ sources ∧ Item.single c.2 ∈ sinks then
    set2d ct (List.indexOf c.1 (flatten sources))
      (List.indexOf (Item.single c.2) sinks) 1
  else ct

/-- Hub.set_up_connection_table: start from a zero matrix with one row
per flat source endpoint and one column per sink and process the
declared connections in order. -/
def set_up_connection_table (sources sinks : List Item)
    (connections : List (NodePath × NodePath)) : List (List Nat) :=
  connections.foldl (ct_update sources sinks)
    (zeros (flatten sources).length sinks.length)

theorem single_mem_flatten {s : NodePath} {l : List Item}
    (h : Item.single s ∈ l) : s ∈ flatten l := by
  unfold flatten
  rw [List.mem_flatMap]
  exact ⟨_, h, by simp [Item.paths]⟩

theorem getD_set {α : Type} (l : List α) (i j : Nat) (a d : α) :
    (l.set i a).getD j d = if i = j ∧ i < l.length then a else l.getD j d := by
  rw [List.getD_eq_getElem?_getD, List.getElem?_set, List.getD_eq_getElem?_getD]
  by_cases h1 : i = j
  · subst h1
    by_cases h2 : i < l.length
    · simp [h2]
    · rw [if_pos rfl, if_neg h2, if_neg (fun hc => h2 hc.2)]
      rw [List.getElem?_eq_none (by omega)]
  · rw [if_neg h1, if_neg (fun hc => h1 hc.1)]

theorem entry_set2d (ct : List (List Nat)) (r0 c0 r c : Nat)
    (hr0 : r0 < ct.length) (hc0 : c0 < (ct.getD r0 []).length) :
    entry (set2d ct r0 c0 1) r c =
      if r = r0 ∧ c = c0 then 1 else entry ct r c := by
  unfold entry set2d
  rw [getD_set]
  by_cases h1 : r0 = r
  · subst h1
    rw [if_pos ⟨rfl, hr0⟩, getD_set]
    by_cases h2 : c0 = c
    · subst h2
      rw [if_pos ⟨rfl, hc0⟩, if_pos ⟨rfl, rfl⟩]
    · rw [if_neg (fun hc => h2 hc.1), if_neg (fun hc => h2 hc.2.symm)]
  · rw [if_neg (fun hc => h1 hc.1), if_neg (fun hc => h1 hc.1.symm)]

/-- Row/column shape invariant of a table. -/
def tshape (nrows ncols : Nat) (ct : List (List Nat)) : Prop :=
  ct.length = nrows ∧ ∀ j, j < nrows → (ct.getD j []).length = ncols

theorem tshape_zeros (nrows ncols : Nat) : tshape nrows ncols (zeros nrows ncols) := by
  constructor
  · simp [zeros]
  · intro j hj
    unfold zeros
    rw [getD_replicate_lt hj, List.length_replicate]

theorem tshape_update (sources sinks : List Item) (st : NodePath × NodePath)
    {ct : List (List Nat)}
    (h : tshape (flatten sources).length sinks.length ct) :
    tshape (flatten sources).length sinks.length (ct_update sources sinks ct st) := by
  unfold ct_update
  split
  · refine ⟨by rw [set2d, List.length_set]; exact h.1, fun j hj => ?_⟩
    unfold set2d
    rw [getD_set]
    split
    case isTrue hc2 =>
      rw [List.length_set]
      exact h.2 _ (by rw [← h.1]; exact hc2.2)
    case isFalse => exact h.2 j hj
  · exact h

theorem entry_foldl (sources sinks : List Item)
    (cons : List (NodePath × NodePath)) (init : List (List Nat))
    (hsh : tshape (flatten sources).length sinks.length init) (r c : Nat) :
    entry (cons.foldl (ct_update sources sinks) init) r c =
      if ∃ st ∈ cons, Item.single st.1 ∈ sources ∧ Item.single st.2 ∈ sinks ∧
          List.indexOf st.1 (flatten sources) = r ∧
          List.indexOf (Item.single st.2) sinks = c
      then 1 else entry init r c := by
  induction cons generalizing init with
  | nil => simp
  | cons st rest ih =>
    rw [List.foldl_cons, ih _ (tshape_update sources sinks st hsh)]
    simp only [List.mem_cons, or_and_right, exists_or, exists_eq_left]
    by_cases hA : ∃ st2 ∈ rest, Item.single st2.1 ∈ sources ∧
        Item.single st2.2 ∈ sinks ∧
        List.indexOf st2.1 (flatten sources) = r ∧
        List.indexOf (Item.single st2.2) sinks = c
    · rw [if_pos hA, if_pos (Or.inr hA)]
    · rw [if_neg hA]
      unfold ct_update
      by_cases hcond : Item.single st.1 ∈ sources ∧ Item.single st.2 ∈ sinks
      · rw [if_pos hcond]
        have hmem : st.1 ∈ flatten sources := single_mem_flatten hcond.1
        have hr1 : List.indexOf st.1 (flatten sources) < init.length := by
          rw [hsh.1]
          exact List.indexOf_lt_length.mpr hmem
        have hc1 : List.indexOf (Item.single st.2) sinks <
            (init.getD (List.indexOf st.1 (flatten sources)) []).length := by
          rw [hsh.2 _ (by rw [← hsh.1]; exact hr1)]
          exact List.indexOf_lt_length.mpr hcond.2
        rw [entry_set2d _ _ _ _ _ hr1 hc1]
        by_cases heq : r = List.indexOf st.1 (flatten sources) ∧
            c = List.indexOf (Item.single st.2) sinks
        · rw [if_pos heq, if_pos (Or.inl ⟨hcond.1, hcond.2, heq.1.symm, heq.2.symm⟩)]
        · have hB : ¬((Item.single st.1 ∈ sources ∧ Item.single st.2 ∈ sinks ∧
              List.indexOf st.1 (flatten sources) = r ∧
              List.indexOf (Item.single st.2) sinks = c) ∨
              ∃ st2 ∈ rest, Item.single st2.1 ∈ sources ∧
                Item.single st2.2 ∈ sinks ∧
                List.indexOf st2.1 (flatten sources) = r ∧
                List.indexOf (Item.single st2.2) sinks = c) := by
            rintro (⟨h1, h2, h3, h4⟩ | hA2)
            · exact heq ⟨h3.symm, h4.symm⟩
            · exact hA hA2
          rw [if_neg heq, if_neg hB]
      · have hB : ¬((Item.single st.1 ∈ sources ∧ Item.single st.2 ∈ sinks ∧
            List.indexOf st.1 (flatten sources) = r ∧
            List.indexOf (Item.single st.2) sinks = c) ∨
            ∃ st2 ∈ rest, Item.single st2.1 ∈ sources ∧
              Item.single st2.2 ∈ sinks ∧
              List.indexOf st2.1 (flatten sources) = r ∧
              List.indexOf (Item.single st2.2) sinks = c) := by
          rintro (⟨h1, h2, h3, h4⟩ | hA2)
          · exact hcond ⟨h1, h2⟩
          · exact hA hA2
        rw [if_neg hcond, if_neg hB]

theorem entry_zeros (n m r c : Nat) : entry (zeros n m) r c = 0 := by
  unfold entry zeros
  by_cases h : r < n
  · rw [getD_replicate_lt h, getD_replicate_self]
  · rw [getD_replicate_ge (by omega)]
    simp

/-- Closed-form characterization of the connection table entries. -/
theorem set_up_connection_table_entry (sources sinks : List Item)
    (cons : List (NodePath × NodePath)) (r c : Nat) :
    entry (set_up_connection_table sources sinks cons) r c =
      if ∃ st ∈ cons, Item.single st.1 ∈ sources ∧ Item.single st.2 ∈ sinks ∧
          List.indexOf st.1 (flatten sources) = r ∧
          List.indexOf (Item.single st.2) sinks = c
      then 1 else 0 := by
  unfold set_up_connection_table
  rw [entry_foldl sources sinks cons _ (tshape_zeros _ _), entry_zeros]
/-- Connection tables only contain zeros and ones. -/
theorem set_up_connection_table_le_one (sources sinks : List Item)
    (cons : List (NodePath × NodePath)) :
    ∀ row ∈ set_up_connection_table sources sinks cons, ∀ x ∈ row, x ≤ 1 := by
  intro row hrow x hx
  rw [List.mem_iff_getElem] at hrow hx
  obtain ⟨r, hr, hrow⟩ := hrow
  obtain ⟨c, hc, hx⟩ := hx
  have he : entry (set_up_connection_table sources sinks cons) r c = x := by
    unfold entry
    rw [List.getD_eq_getElem _ _ hr, hrow, List.getD_eq_getElem _ _ hc, hx]
  rw [set_up_connection_table_entry] at he
  split at he <;> omega

/-- C5 counterexample: with a single forced-order source group (p, q), a
sink s and the declared connection (p, s), the entry at the row of p and
the column of s stays 0, because the membership test compares the flat
path p against the unexpanded tuple entry.  So "entry is 1 iff the pair
is declared" fails. -/
theorem claim_C5_counterexample :
    ¬ (entry (set_up_connection_table [Item.group ["p", "q"]] [Item.single "s"]
          [("p", "s")]) 0 0 = 1 ↔
        ("p", "s") ∈ ([("p", "s")] : List (NodePath × NodePath))) := by
  decide

/-- Which table entries are 1: the producer must itself be a top-level
source entry and the consumer a plain sink entry of a declared
connection. -/
theorem table_entry_one_iff (sources sinks : List Item)
    (cons : List (NodePath × NodePath))
    (hnf : (flatten sources).Nodup) (hns : sinks.Nodup) (r c : Nat)
    (hr : r < (flatten sources).length) (hc : c < sinks.length) :
    entry (set_up_connection_table sources sinks cons) r c = 1 ↔
      (∃ t, sinks.getD c (Item.single "") = Item.single t ∧
        ((flatten sources).getD r "", t) ∈ cons) ∧
      Item.single ((flatten sources).getD r "") ∈ sources := by
  rw [set_up_connection_table_entry]
  split
  case isTrue h =>
    obtain ⟨st, hmem, h1, h2, h3, h4⟩ := h
    have hflat : (flatten sources).getD r "" = st.1 := by
      rw [← h3, List.getD_eq_getElem _ _ (by rw [h3]; exact hr)]
      exact List.getElem_indexOf _
    have hsink : sinks.getD c (Item.single "") = Item.single st.2 := by
      rw [← h4, List.getD_eq_getElem _ _ (by rw [h4]; exact hc)]
      exact List.getElem_indexOf _
    refine iff_of_true rfl ⟨⟨st.2, hsink, ?_⟩, by rw [hflat]; exact h1⟩
    rw [hflat]
    exact hmem
  case isFalse h =>
    refine iff_of_false (by omega) ?_
    rintro ⟨⟨t, hsink, hcon⟩, hsrc⟩
    apply h
    have htmem : Item.single t ∈ sinks := by
      rw [← hsink, List.getD_eq_getElem _ _ hc]
      exact List.getElem_mem hc
    refine ⟨((flatten sources).getD r "", t), hcon, hsrc, htmem, ?_, ?_⟩
    · rw [List.getD_eq_getElem _ _ hr]
      exact List.indexOf_getElem hnf r hr
    · have ht : Item.single t = sinks[c] := by
        rw [← List.getD_eq_getElem _ _ hc, hsink]
      rw [ht]
      exact List.indexOf_getElem hns c hc

/-- C5 (amended): rows of the incidence matrix are indexed by the
flattened source endpoints (forced-order groups expanded in declared
order) and columns by the sinks; provided the flat source paths and the
sinks are duplicate-free, the entry at (producer, consumer) is 1 iff
(producer, consumer) is a declared connection, the producer is itself a
top-level entry of the source list (not merely a member of a
forced-order group), and the consumer is a plain sink entry. -/
theorem claim_C5_amended (sources sinks : List Item)
    (cons : List (NodePath × NodePath))
    (hnf : (flatten sources).Nodup) (hns : sinks.Nodup) (r c : Nat)
    (hr : r < (flatten sources).length) (hc : c < sinks.length) :
    entry (set_up_connection_table sources sinks cons) r c = 1 ↔
      (∃ t, sinks.getD c (Item.single "") = Item.single t ∧
        ((flatten sources).getD r "", t) ∈ cons) ∧
      Item.single ((flatten sources).getD r "") ∈ sources :=
  table_entry_one_iff sources sinks cons hnf hns r c hr hc

/-- Witness for the amended C5 at a concrete two-entry source list. -/
theorem claim_C5_witness :
    ((flatten [Item.single "x", Item.group ["p", "q"]]).Nodup ∧
      ([Item.single "s"] : List Item).Nodup ∧
      0 < (flatten [Item.single "x", Item.group ["p", "q"]]).length ∧
      0 < ([Item.single "s"] : List Item).length) ∧
    (entry (set_up_connection_table [Item.single "x", Item.group ["p", "q"]]
        [Item.single "s"] [("x", "s"), ("p", "s")]) 0 0 = 1 ↔
      (∃ t, ([Item.single "s"] : List Item).getD 0 (Item.single "") = Item.single t ∧
        ((flatten [Item.single "x", Item.group ["p", "q"]]).getD 0 "", t) ∈
          ([("x", "s"), ("p", "s")] : List (NodePath × NodePath))) ∧
      Item.single ((flatten [Item.single "x", Item.group ["p", "q"]]).getD 0 "") ∈
        [Item.single "x", Item.group ["p", "q"]]) :=
  ⟨⟨by decide, by decide, by decide, by decide⟩,
    claim_C5_amended _ _ _ (by decide) (by decide) 0 0 (by decide) (by decide)⟩
/-! Row permutation: Hub.permute_rows. -/

/-- Modelled from the spec: brainstorm.utils.convert_to_nested_indices
(not part of the analyzed source) mirrors the source list with
consecutive row indices, a forced-order group becoming a block of
consecutive indices and a plain path a singleton block; the blocks are
the atomic units that itertools.permutations permutes. -/
def nested_indices_from (k : Nat) : List Item → List (List Nat)
  | [] => []
  | it :: rest =>
    List.range' k it.paths.length :: nested_indices_from (k + it.paths.length) rest

def nested_indices (l : List Item) : List (List Nat) := nested_indices_from 0 l

/-- Rows of a table selected by an index list (numpy ct[perm]). -/
def select_rows (ct : List (List Nat)) (perm : List Nat) : List (List Nat) :=
  perm.map (fun i => ct.getD i [])

/-- All ways to pick one element of a list together with the remaining
elements, in order of the picked position. -/
def selections {α : Type} : List α → List (α × List α)
  | [] => []
  | a :: t => (a, t) :: (selections t).map (fun br => (br.1, a :: br.2))

/-- Fuel-indexed permutation enumeration; with fuel equal to the list
length it enumerates exactly the permutations of the list, in the
lexicographic selection order that itertools.permutations uses. -/
def perms_fuel {α : Type} : Nat → List α → List (List α)
  | 0, _ => [[]]
  | n + 1, l =>
    (selections l).flatMap (fun br => (perms_fuel n br.2).map (fun q => br.1 :: q))

/-- itertools.permutations, as used by Hub.permute_rows. -/
def permutations_lex {α : Type} (l : List α) : List (List α) :=
  perms_fuel l.length l

/-- The loop body of Hub.permute_rows: reorder the table rows by the
flattened index permutation and keep the permutation iff the reordered
table satisfies the single-buffer condition (the accepted ordering also
fixes the flat source list). -/
def permute_step (sources : List Item) (ct : List (List Nat)) (ncols : Nat)
    (p : List (List Nat)) : Option (List NodePath × List (List Nat)) :=
  if can_be_connected_with_single_buffer (select_rows ct p.flatten) ncols then
    some (p.flatten.map (fun i => (flatten sources).getD i ""),
      select_rows ct p.flatten)
  else none

/-- Hub.permute_rows: systematically try all permutations of the nested
index units until one satisfies the condition; none models the
NetworkValidationError raised when no permutation does. -/
def permute_rows (sources : List Item) (ct : List (List Nat)) (ncols : Nat) :
    Option (List NodePath × List (List Nat)) :=
  (permutations_lex (nested_indices sources)).findSome?
    (permute_step sources ct ncols)

theorem selections_perm {α : Type} {a : α} {r l : List α}
    (h : (a, r) ∈ selections l) : l.Perm (a :: r) := by
  induction l generalizing a r with
  | nil => simp [selections] at h
  | cons x t ih =>
    rw [selections, List.mem_cons] at h
    rcases h with h | h
    · rw [Prod.mk.injEq] at h
      obtain ⟨h1, h2⟩ := h
      subst h1
      subst h2
      exact List.Perm.refl _
    · rw [List.mem_map] at h
      obtain ⟨⟨b, r2⟩, hbr, heq⟩ := h
      rw [Prod.mk.injEq] at heq
      obtain ⟨hb, hr⟩ := heq
      subst hb
      subst hr
      have hperm := ih hbr
      exact (hperm.cons x).trans (List.Perm.swap _ _ _)

theorem selections_length {α : Type} {a : α} {r l : List α}
    (h : (a, r) ∈ selections l) : r.length + 1 = l.length := by
  induction l generalizing a r with
  | nil => simp [selections] at h
  | cons x t ih =>
    rw [selections, List.mem_cons] at h
    rcases h with h | h
    · rw [Prod.mk.injEq] at h
      rw [h.2]
      simp
    · rw [List.mem_map] at h
      obtain ⟨⟨b, r2⟩, hbr, heq⟩ := h
      rw [Prod.mk.injEq] at heq
      obtain ⟨hb, hr⟩ := heq
      subst hb
      subst hr
      have := ih hbr
      simp
      omega

theorem sel_erase {α : Type} [DecidableEq α] {a : α} {l : List α}
    (h : a ∈ l) : (a, l.erase a) ∈ selections l := by
  induction l with
  | nil => simp at h
  | cons x t ih =>
    by_cases hx : x = a
    · subst hx
      rw [List.erase_cons_head]
      simp [selections]
    · have ha : a ∈ t := by
        rcases List.mem_cons.mp h with h2 | h2
        · exact absurd h2.symm hx
        · exact h2
      rw [List.erase_cons_tail (by simp [hx])]
      rw [selections, List.mem_cons]
      right
      rw [List.mem_map]
      exact ⟨(a, t.erase a), ih ha, rfl⟩

theorem mem_perms_fuel {α : Type} [DecidableEq α] (n : Nat) :
    ∀ (l p : List α), n = l.length → (p ∈ perms_fuel n l ↔ p.Perm l) := by
  induction n with
  | zero =>
    intro l p hn
    have hl : l = [] := List.length_eq_zero.mp hn.symm
    subst hl
    rw [perms_fuel]
    simp [List.perm_nil]
  | succ n ih =>
    intro l p hn
    constructor
    · intro hp
      rw [perms_fuel, List.mem_flatMap] at hp
      obtain ⟨⟨a, r⟩, hsel, hp2⟩ := hp
      rw [List.mem_map] at hp2
      obtain ⟨q, hq, rfl⟩ := hp2
      have hlen : n = r.length := by
        have := selections_length hsel
        omega
      have hqr : q.Perm r := (ih r q hlen).mp hq
      have hl : l.Perm (a :: r) := selections_perm hsel
      exact (hqr.cons a).trans hl.symm
    · intro hp
      cases p with
      | nil =>
        have hlen := hp.length_eq
        simp at hlen
        omega
      | cons b p2 =>
        have hbl : b ∈ l := hp.mem_iff.mp (by simp)
        have hsel := sel_erase hbl
        have hp2 : p2.Perm (l.erase b) := by
          have h2 : (b :: p2).Perm (b :: l.erase b) :=
            hp.trans (List.perm_cons_erase hbl)
          exact h2.cons_inv
        have hlen : n = (l.erase b).length := by
          rw [List.length_erase_of_mem hbl]
          omega
        rw [perms_fuel, List.mem_flatMap]
        refine ⟨(b, l.erase b), hsel, ?_⟩
        rw [List.mem_map]
        exact ⟨p2, (ih (l.erase b) p2 hlen).mpr hp2, rfl⟩

/-- Membership in the permutation enumeration is exactly being a
permutation of the unit list. -/
theorem mem_permutations_lex {α : Type} [DecidableEq α] {l p : List α} :
    p ∈ permutations_lex l ↔ p.Perm l :=
  mem_perms_fuel l.length l p rfl

theorem findSome?_mem_of_eq_some {α β : Type} {f : α → Option β} {l : List α}
    {b : β} (h : l.findSome? f = some b) : ∃ a ∈ l, f a = some b := by
  induction l with
  | nil => simp at h
  | cons x t ih =>
    rw [List.findSome?_cons] at h
    cases hx : f x with
    | some v =>
      rw [hx] at h
      exact ⟨x, by simp, by rw [hx]; exact h⟩
    | none =>
      rw [hx] at h
      obtain ⟨a, ha, hf⟩ := ih h
      exact ⟨a, by simp [ha], hf⟩

theorem map_range_getD (pre mid post : List NodePath) :
    (List.range' pre.length mid.length).map
      (fun i => (pre ++ (mid ++ post)).getD i "") = mid := by
  apply List.ext_getElem
  · simp
  · intro j h1 h2
    simp only [List.getElem_map, List.getElem_range']
    rw [List.getD_append_right _ _ _ _ (by omega)]
    have hj : pre.length + 1 * j - pre.length = j := by omega
    rw [hj, List.getD_append _ _ _ _ (by simpa using h2),
      List.getD_eq_getElem _ _ (by simpa using h2)]

theorem flatten_cons_items (it : Item) (rest : List Item) :
    flatten (it :: rest) = it.paths ++ flatten rest := by
  simp [flatten]

/-- Reading the flat source list back through the index blocks yields
the flat sources. -/
theorem map_getD_flatten_nested (l : List Item) (pre : List NodePath) :
    (nested_indices_from pre.length l).flatten.map
      (fun i => (pre ++ flatten l).getD i "") = flatten l := by
  induction l generalizing pre with
  | nil => simp [nested_indices_from, flatten]
  | cons it rest ih =>
    rw [nested_indices_from, List.flatten_cons, List.map_append,
      flatten_cons_items, ← List.append_assoc]
    have h1 : (List.range' pre.length it.paths.length).map
        (fun i => (pre ++ it.paths ++ flatten rest).getD i "") = it.paths := by
      rw [List.append_assoc]
      exact map_range_getD pre it.paths (flatten rest)
    have h2 := ih (pre ++ it.paths)
    rw [List.length_append] at h2
    rw [h1, h2]

/-- Each source entry owns one index block, which reads back to exactly
its member paths. -/
theorem exists_block_from (l : List Item) (it : Item) (h : it ∈ l)
    (pre : List NodePath) :
    ∃ b ∈ nested_indices_from pre.length l,
      b.map (fun i => (pre ++ flatten l).getD i "") = it.paths := by
  induction l generalizing pre with
  | nil => simp at h
  | cons it2 rest ih =>
    rw [List.mem_cons] at h
    rcases h with h | h
    · subst h
      refine ⟨List.range' pre.length it.paths.length, by simp [nested_indices_from], ?_⟩
      rw [flatten_cons_items, ← List.append_assoc, List.append_assoc]
      exact map_range_getD pre it.paths (flatten rest)
    · obtain ⟨b, hb, hmap⟩ := ih h (pre ++ it2.paths)
      refine ⟨b, by rw [nested_indices_from]; right; rw [← List.length_append]; exact hb, ?_⟩
      rw [flatten_cons_items, ← List.append_assoc]
      exact hmap
theorem map_getD_flatten_nested_zero (l : List Item) :
    (nested_indices l).flatten.map (fun i => (flatten l).getD i "") = flatten l := by
  have h := map_getD_flatten_nested l []
  simpa [nested_indices] using h

theorem exists_block (l : List Item) (it : Item) (h : it ∈ l) :
    ∃ b ∈ nested_indices l, b.map (fun i => (flatten l).getD i "") = it.paths := by
  have h2 := exists_block_from l it h []
  simpa [nested_indices] using h2

/-- C1: Hub.permute_rows accepts an ordering of the
forced-order-preserving units under which every sink column passes the
contiguity predicate whenever at least one exists, and reports the
fatal layout error (modelled as none) iff no ordering of the units
satisfies every column: a returned result is produced by some
permutation of the index units and passes the check; none is returned
iff every unit permutation fails the check; and the 3-producer /
3-consumer pattern X from A and B, Y from B and C, Z from A and C
admits no ordering, so it yields the error. -/
theorem claim_C1_permute_rows :
    (∀ (sources : List Item) (ct : List (List Nat)) (ncols : Nat)
        (res : List NodePath × List (List Nat)),
        permute_rows sources ct ncols = some res →
        can_be_connected_with_single_buffer res.2 ncols = true ∧
        ∃ p : List (List Nat), p.Perm (nested_indices sources) ∧
          res.2 = select_rows ct p.flatten ∧
          res.1 = p.flatten.map (fun i => (flatten sources).getD i "")) ∧
    (∀ (sources : List Item) (ct : List (List Nat)) (ncols : Nat),
        permute_rows sources ct ncols = none ↔
        ∀ p : List (List Nat), p.Perm (nested_indices sources) →
          can_be_connected_with_single_buffer (select_rows ct p.flatten) ncols = false) ∧
    permute_rows [Item.single "A", Item.single "B", Item.single "C"]
      [[1, 0, 1], [1, 1, 0], [0, 1, 1]] 3 = none := by
  refine ⟨?_, ?_, by decide⟩
  · intro sources ct ncols res h
    rw [permute_rows] at h
    obtain ⟨p, hp, hf⟩ := findSome?_mem_of_eq_some h
    rw [mem_permutations_lex] at hp
    rw [permute_step] at hf
    split at hf
    case isTrue hc =>
      rw [Option.some_inj] at hf
      subst hf
      exact ⟨hc, p, hp, rfl, rfl⟩
    case isFalse => simp at hf
  · intro sources ct ncols
    rw [permute_rows, List.findSome?_eq_none_iff]
    constructor
    · intro h p hp
      have h2 := h p (mem_permutations_lex.mpr hp)
      rw [permute_step] at h2
      split at h2
      case isTrue hc => simp at h2
      case isFalse hc => simpa using hc
    · intro h p hp
      rw [mem_permutations_lex] at hp
      have hc := h p hp
      rw [permute_step, if_neg (by simp [hc])]

/-- Witness for C1 at a concrete solvable hub. -/
theorem claim_C1_witness :
    permute_rows [Item.single "A", Item.single "B"] [[1, 0], [1, 1]] 2 =
      some (["A", "B"], [[1, 0], [1, 1]]) ∧
    (can_be_connected_with_single_buffer
        ((["A", "B"], ([[1, 0], [1, 1]] : List (List Nat))) :
          List NodePath × List (List Nat)).2 2 = true ∧
      ∃ p : List (List Nat),
        p.Perm (nested_indices [Item.single "A", Item.single "B"]) ∧
        ((["A", "B"], ([[1, 0], [1, 1]] : List (List Nat))) :
          List NodePath × List (List Nat)).2 =
          select_rows [[1, 0], [1, 1]] p.flatten ∧
        ((["A", "B"], ([[1, 0], [1, 1]] : List (List Nat))) :
          List NodePath × List (List Nat)).1 =
          p.flatten.map (fun i =>
            (flatten [Item.single "A", Item.single "B"]).getD i "")) :=
  ⟨by decide, claim_C1_permute_rows.1 _ _ _ _ (by decide)⟩

/-- C7: a successful permute_rows permutes whole units only: the final
flat source ordering is a permutation of the flat endpoints in which
every forced-order group of the source list appears as one contiguous
segment in its declared member order. -/
theorem claim_C7_forced_order_adjacent (sources : List Item)
    (ct : List (List Nat)) (ncols : Nat)
    (res : List NodePath × List (List Nat))
    (h : permute_rows sources ct ncols = some res) :
    res.1.Perm (flatten sources) ∧
    ∀ g, Item.group g ∈ sources → ∃ pre post, res.1 = pre ++ g ++ post := by
  rw [permute_rows] at h
  obtain ⟨p, hp, hf⟩ := findSome?_mem_of_eq_some h
  rw [mem_permutations_lex] at hp
  rw [permute_step] at hf
  split at hf
  case isFalse => simp at hf
  case isTrue hc =>
    rw [Option.some_inj] at hf
    subst hf
    constructor
    · have h2 := (hp.flatten).map (fun i => (flatten sources).getD i "")
      rw [map_getD_flatten_nested_zero] at h2
      exact h2
    · intro g hg
      obtain ⟨b, hb, hmap⟩ := exists_block sources (Item.group g) hg
      have hbp : b ∈ p := hp.mem_iff.mpr hb
      obtain ⟨s, t, hst⟩ := List.mem_iff_append.mp hbp
      subst hst
      refine ⟨s.flatten.map (fun i => (flatten sources).getD i ""),
        t.flatten.map (fun i => (flatten sources).getD i ""), ?_⟩
      rw [List.flatten_append, List.flatten_cons, List.map_append, List.map_append]
      rw [show (Item.group g).paths = g from rfl] at hmap
      rw [hmap]
      exact (List.append_assoc _ g _).symm

/-- Witness for C7 at a hub with one forced-order group. -/
theorem claim_C7_witness :
    permute_rows [Item.group ["p", "q"]] [[1], [0]] 1 =
      some (["p", "q"], [[1], [0]]) ∧
    (((["p", "q"], ([[1], [0]] : List (List Nat))) :
        List NodePath × List (List Nat)).1.Perm (flatten [Item.group ["p", "q"]]) ∧
      ∀ g, Item.group g ∈ [Item.group ["p", "q"]] →
        ∃ pre post, ((["p", "q"], ([[1], [0]] : List (List Nat))) :
          List NodePath × List (List Nat)).1 = pre ++ g ++ post) :=
  ⟨by decide, claim_C7_forced_order_adjacent [Item.group ["p", "q"]] [[1], [0]] 1
    (["p", "q"], [[1], [0]]) (by decide)⟩
/-! The hub record and Hub.get_indices. -/

/-- A solved hub as produced by Hub.create: sources hold the flat
endpoint paths in their final (permuted) order, sinks keep the sorted
sink entries, and the connection table rows follow the final source
order. -/
structure Hub where
  sources : List NodePath
  sinks : List Item
  btype : Nat
  context_size : Nat
  connection_table : List (List Nat)
  sizes : List Nat
  size : Nat
deriving DecidableEq

/-- np.cumsum([0] + sizes): position i holds the sum of the first i
sizes. -/
def offsets (sizes : List Nat) : List Nat :=
  (List.range (sizes.length + 1)).map (fun i => (sizes.take i).sum)

/-- np.argmax: the first index of the maximum entry.  numpy rejects an
empty input; hubs always have at least one source, so the 0 returned
here for an empty column is never reached from the pipeline. -/
def argmax (l : List Nat) : Nat := List.indexOf (l.foldr max 0) l

/-- Hub.get_indices: each source paired with its half-open slice from
the cumulative offsets (zip truncates like the Python zip), then each
sink paired with the range from the offset of the first 1 of its
column to the offset one past the last 1 (argmax on the column and on
the reversed column). -/
def Hub.get_indices (h : Hub) : List (Item × (Nat × Nat)) :=
  ((h.sources.zip ((offsets h.sizes).zip (offsets h.sizes).tail)).map
    (fun sp => (Item.single sp.1, sp.2))) ++
  (h.sinks.enum.map (fun isk =>
    (isk.2,
      ((offsets h.sizes).getD (argmax (column h.connection_table isk.1)) 0,
       (offsets h.sizes).getD
         (h.connection_table.length -
           argmax ((column h.connection_table isk.1).reverse)) 0))))

/-! The layer registry and the layout tree. -/

/-- A shape template, reduced to the three facts the planner reads from
it: the element count (get_feature_size), the buffer-type tag
(validate_shape_template) and the context size ('@context_size' in the
serialized attributes, absent meaning 0). -/
structure Shape where
  feature_size : Nat
  btype : Nat
  context_size : Nat
deriving DecidableEq

def get_feature_size (s : Shape) : Nat := s.feature_size

def validate_shape_template (s : Shape) : Nat := s.btype

/-- A leaf array node of the layout tree: its shape attributes (absent
on the bare root parameters stub until the very end), declared index,
and the slice/hub fields written by layout_hubs. -/
structure ArrayNode where
  shape : Option Shape
  index : Nat
  slice : Option (Nat × Nat) := none
  hub : Option Nat := none
deriving DecidableEq

/-- The layout tree: BufferView nodes with named children and a
declared index, and array leaves. -/
inductive LNode where
  | array (a : ArrayNode)
  | view (index : Nat) (children : List (String × LNode))

/-- The planner's failure kinds (Python exceptions). -/
inductive LayoutErr where
  | overlappingForcedOrder
  | inconsistentBufferType
  | unsatisfiableLayout
  | keyErr
  | valueErr
  | indexErr
  | attributeErr
  | fuel
deriving DecidableEq

deriving instance DecidableEq for Except

/-- Dict lookup of a child by name. -/
def childLookup (children : List (String × LNode)) (k : String) : Option LNode :=
  (children.find? (fun c => decide (c.1 = k))).map (fun c => c.2)

/-- path.split('.') on the character list (String.splitOn itself is
opaque to kernel reduction). -/
def split_chars (sep : Char) : List Char → List (List Char)
  | [] => [[]]
  | c :: rest =>
    match split_chars sep rest with
    | [] => if c = sep then [[], []] else [[c]]
    | h :: t => if c = sep then [] :: h :: t else (c :: h) :: t

def split_dots (s : String) : List String :=
  (split_chars (Char.ofNat 46) s.data).map (fun cs => String.mk cs)

/-- get_by_path: resolve a dotted path segment by segment, failing with
the KeyError kind when a segment is missing (array leaves expose no
named children). -/
def get_by_path (path : NodePath) (layout : LNode) : Except LayoutErr LNode :=
  (split_dots path).foldlM (fun node p =>
    match node with
    | LNode.view _ children =>
      match childLookup children p with
      | some c => Except.ok c
      | none => Except.error LayoutErr.keyErr
    | LNode.array _ => Except.error LayoutErr.keyErr) layout

/-- get_by_path(s, layout) followed by the mandatory '@shape' read. -/
def get_shape (path : NodePath) (layout : LNode) : Except LayoutErr Shape := do
  let n ← get_by_path path layout
  match n with
  | LNode.array a =>
    match a.shape with
    | some s => Except.ok s
    | none => Except.error LayoutErr.keyErr
  | LNode.view _ _ => Except.error LayoutErr.keyErr

/-- get_by_path(s, layout).get('@context_size', 0). -/
def get_context (path : NodePath) (layout : LNode) : Except LayoutErr Nat := do
  let n ← get_by_path path layout
  match n with
  | LNode.array a => Except.ok ((a.shape.map Shape.context_size).getD 0)
  | LNode.view _ _ => Except.ok 0

/-- Replace the value of an existing key. -/
def childReplace (children : List (String × LNode)) (k : String) (v : LNode) :
    List (String × LNode) :=
  children.map (fun c => if c.1 = k then (k, v) else c)

/-- Write through a resolved dotted path to an array leaf; the planner
only ever writes slice and hub attributes of array leaves on runs that
reach the writing phase. -/
def update_by_path (f : ArrayNode → ArrayNode) :
    List String → LNode → Except LayoutErr LNode
  | [], LNode.array a => Except.ok (LNode.array (f a))
  | [], LNode.view _ _ => Except.error LayoutErr.keyErr
  | _ :: _, LNode.array _ => Except.error LayoutErr.keyErr
  | p :: rest, LNode.view idx children =>
    match childLookup children p with
    | none => Except.error LayoutErr.keyErr
    | some c => do
      let c2 ← update_by_path f rest c
      Except.ok (LNode.view idx (childReplace children p c2))

def update_path (path : NodePath) (f : ArrayNode → ArrayNode) (layout : LNode) :
    Except LayoutErr LNode :=
  update_by_path f (split_dots path) layout

/-- A layer object, reduced to what the planner reads: the ordered
input/output shape mappings, the ordered parameter and internal-state
structures, and the outgoing connections as
(start_layer, output_name, end_layer, input_name). -/
structure Layer where
  in_shapes : List (String × Shape)
  out_shapes : List (String × Shape)
  parameter_structure : List (String × Shape)
  internal_structure : List (String × Shape)
  outgoing : List (String × String × String × String)

/-- Modelled from the spec: brainstorm.utils.get_normalized_path (not
part of the analyzed source) joins layer and port names into one dotted
path. -/
def get_normalized_path (a b c : String) : NodePath := a ++ "." ++ b ++ "." ++ c
/-! Graph extraction. -/

/-- Total order on connection pairs (Python tuple comparison), used by
sorted(connections). -/
def pair_le (a b : NodePath × NodePath) : Prop :=
  a.1 < b.1 ∨ (a.1 = b.1 ∧ a.2 ≤ b.2)

instance : DecidableRel pair_le := fun a b =>
  inferInstanceAs (Decidable (a.1 < b.1 ∨ (a.1 = b.1 ∧ a.2 ≤ b.2)))

/-- get_connections: explicit inter-layer wiring normalized to dotted
paths, plus one implicit connection per layer parameter into the
synthetic global parameters consumer, sorted. -/
def get_connections (layers : List (String × Layer)) : List (NodePath × NodePath) :=
  List.insertionSort pair_le
    (layers.flatMap (fun nl => nl.2.outgoing.map (fun con =>
      (get_normalized_path con.1 "outputs" con.2.1,
       get_normalized_path con.2.2.1 "inputs" con.2.2.2))) ++
     layers.flatMap (fun nl => nl.2.parameter_structure.map (fun pn =>
      (get_normalized_path nl.1 "parameters" pn.1, "parameters"))))

def get_parameter_order (layer_name : String) (layer : Layer) : List NodePath :=
  layer.parameter_structure.map (fun o => get_normalized_path layer_name "parameters" o.1)

def get_internal_order (layer_name : String) (layer : Layer) : List NodePath :=
  layer.internal_structure.map (fun o => get_normalized_path layer_name "internals" o.1)

/-- The forced-order tuples before the overlap check: per-layer
parameter paths then per-layer internal paths, empties dropped. -/
def forced_orders_list (layers : List (String × Layer)) : List (List NodePath) :=
  ((layers.map (fun nl => get_parameter_order nl.1 nl.2)) ++
   (layers.map (fun nl => get_internal_order nl.1 nl.2))).filter
    (fun fo => !fo.isEmpty)

/-- Two tuples at distinct positions share an endpoint (the Python loop
skips only the identical object; per the design notes, object identity
is modelled by list position). -/
def has_overlap (fos : List (List NodePath)) : Bool :=
  fos.enum.any (fun ifo => fos.enum.any (fun jfo =>
    decide (ifo.1 ≠ jfo.1) && decide (∃ x ∈ ifo.2, x ∈ jfo.2)))

/-- get_forced_orders: gather the tuples and fail when any two overlap. -/
def get_forced_orders (layers : List (String × Layer)) :
    Except LayoutErr (List (List NodePath)) :=
  if has_overlap (forced_orders_list layers) then
    Except.error LayoutErr.overlappingForcedOrder
  else Except.ok (forced_orders_list layers)

/-! The layout stub. -/

def convert_to_array_json (s : Shape) (i : Nat) : LNode :=
  LNode.array { shape := some s, index := i }

def key_shape_le (a b : String × Shape) : Prop := a.1 ≤ b.1

instance : DecidableRel key_shape_le := fun a b =>
  inferInstanceAs (Decidable (a.1 ≤ b.1))

/-- Children of an inputs/outputs section: keys in sorted order, each
with its enumeration index. -/
def sorted_shape_children (m : List (String × Shape)) : List (String × LNode) :=
  (List.insertionSort key_shape_le m).enum.map
    (fun ik => (ik.2.1, convert_to_array_json ik.2.2 ik.1))

/-- Children of a parameters/internals section: declared order, each
with its enumeration index. -/
def ordered_shape_children (m : List (String × Shape)) : List (String × LNode) :=
  m.enum.map (fun ik => (ik.2.1, convert_to_array_json ik.2.2 ik.1))

/-- get_layout_stub_for_layer plus the '@index' the caller assigns. -/
def get_layout_stub_for_layer (layer : Layer) (idx : Nat) : LNode :=
  LNode.view idx
    [("inputs", LNode.view 0 (sorted_shape_children layer.in_shapes)),
     ("outputs", LNode.view 1 (sorted_shape_children layer.out_shapes)),
     ("parameters", LNode.view 2 (ordered_shape_children layer.parameter_structure)),
     ("internals", LNode.view 3 (ordered_shape_children layer.internal_structure))]

/-- Python dict assignment: overwrite in place, else append. -/
def dict_insert (children : List (String × LNode)) (k : String) (v : LNode) :
    List (String × LNode) :=
  if children.any (fun c => decide (c.1 = k)) then childReplace children k v
  else children ++ [(k, v)]

/-- create_layout_stub: the root view holding the bare parameters array
at index 0 and one stub per layer at indices 1, 2, ... -/
def create_layout_stub (layers : List (String × Layer)) : LNode :=
  LNode.view 0
    (layers.enum.foldl
      (fun acc inl =>
        dict_insert acc inl.2.1 (get_layout_stub_for_layer inl.2.2 (inl.1 + 1)))
      [("parameters", LNode.array { shape := none, index := 0 })])

/-! Node enumeration. -/

def node_index : LNode → Nat
  | LNode.array a => a.index
  | LNode.view i _ => i

def idx_paths_le (a b : Nat × List NodePath) : Prop := a.1 ≤ b.1

instance : DecidableRel idx_paths_le := fun a b =>
  inferInstanceAs (Decidable (a.1 ≤ b.1))

/-- gather_array_nodes: walk the children in declared index order
(sort_by_index_key), yield array children by name and recurse into
views with a dotted prefix.  Computing each child's contribution first
and stable-sorting the (index, paths) pairs gives the same sequence as
sorting the children first. -/
def gather_fuel : Nat → LNode → List NodePath
  | _, LNode.array _ => []
  | 0, LNode.view _ _ => []
  | fuel + 1, LNode.view _ children =>
    (List.insertionSort idx_paths_le
      (children.map (fun c =>
        (node_index c.2,
          match c.2 with
          | LNode.view _ _ =>
            (gather_fuel fuel c.2).map (fun sub => c.1 ++ "." ++ sub)
          | LNode.array _ => [c.1])))).flatMap (fun x => x.2)

mutual

def lnode_size : LNode → Nat
  | LNode.array _ => 1
  | LNode.view _ children => 1 + children_size children

def children_size : List (String × LNode) → Nat
  | [] => 0
  | c :: rest => lnode_size c.2 + 1 + children_size rest

end

/-- The recursion is driven by a structural fuel bounded by the node
size, which strictly exceeds the tree depth, so the zero-fuel case is
never reached from the initial call. -/
def gather_array_nodes (n : LNode) : List NodePath := gather_fuel (lnode_size n) n
/-! Sinks, sources and hub grouping. -/

/-- One candidate endpoint against the forced orders: skip it if some
earlier step already placed it (membership in the flattened
accumulator, checked once per forced order as the Python loop does),
append the whole group if it belongs to one, else append it alone
(Python for/else). -/
def add_source (acc : List Item) (fos : List (List NodePath)) (s : NodePath) :
    List Item :=
  match fos with
  | [] => acc ++ [Item.single s]
  | fo :: rest =>
    if s ∈ flatten acc then acc
    else if s ∈ fo then acc ++ [Item.group fo]
    else add_source acc rest s

/-- get_all_sinks_and_sources: all connection targets, sorted (an empty
connection list makes zip(*connections)[1] fail with IndexError), and
the enumerated endpoints that are not sinks, grouped by forced order. -/
def get_all_sinks_and_sources (fos : List (List NodePath))
    (cons : List (NodePath × NodePath)) (layout : LNode) :
    Except LayoutErr (List NodePath × List Item) :=
  if cons.isEmpty then Except.error LayoutErr.indexErr
  else
    Except.ok
      (List.insertionSort (fun a b : NodePath => a ≤ b) (cons.map (fun c => c.2)),
       (gather_array_nodes layout).foldl (fun acc s =>
         if s ∈ List.insertionSort (fun a b : NodePath => a ≤ b)
             (cons.map (fun c => c.2)) then acc
         else add_source acc fos s) [])

/-- merge_connections on one endpoint: the first forced order
containing the path replaces it (after the Python loop rebinds the
variable to a tuple, later membership tests are False). -/
def merge_node (fos : List (List NodePath)) (p : NodePath) : Item :=
  match fos.find? (fun fo => decide (p ∈ fo)) with
  | some fo => Item.group fo
  | none => Item.single p

def merge_connections (cons : List (NodePath × NodePath))
    (fos : List (List NodePath)) : List (Item × Item) :=
  cons.map (fun c => (merge_node fos c.1, merge_node fos c.2))

/-! The forward closure (get_forward_closure). -/

/-- The connection targets of a source set. -/
def ends_of {α : Type} [DecidableEq α] (cons : List (α × α)) (S : Finset α) :
    Finset α :=
  ((cons.filter (fun c => decide (c.1 ∈ S))).map (fun c => c.2)).toFinset

/-- The connection starts into a sink set. -/
def starts_of {α : Type} [DecidableEq α] (cons : List (α × α)) (K : Finset α) :
    Finset α :=
  ((cons.filter (fun c => decide (c.2 ∈ K))).map (fun c => c.1)).toFinset

/-- The growing loop of get_forward_closure: recompute both sets from
the current pair and keep going while either grew in cardinality,
otherwise return the current pair.  The fuel models the unbounded
Python while loop; the adequacy proof shows the initial fuel never runs
out. -/
def fc_loop {α : Type} [DecidableEq α] (cons : List (α × α)) :
    Nat → Finset α → Finset α → Option (Finset α × Finset α)
  | 0, _, _ => none
  | fuel + 1, S, K =>
    if S.card < (starts_of cons K).card ∨ K.card < (ends_of cons S).card then
      fc_loop cons fuel (starts_of cons K) (ends_of cons S)
    else some (S, K)

/-- get_forward_closure from a seed node. -/
def get_forward_closure {α : Type} [DecidableEq α] (node : α)
    (cons : List (α × α)) : Option (Finset α × Finset α) :=
  fc_loop cons (2 * cons.length + 2) {node} (ends_of cons {node})

/-! Hub.create and group_into_hubs. -/

/-- Python 2 mixed comparison of source entries: all strings sort
before all tuples (the type names are compared), strings by string
order and tuples lexicographically. -/
def item_le (a b : Item) : Prop :=
  match a, b with
  | Item.single p, Item.single q => p ≤ q
  | Item.single _, Item.group _ => True
  | Item.group _, Item.single _ => False
  | Item.group p, Item.group q => p ≤ q

instance item_le_dec : DecidableRel item_le := fun a b =>
  match a, b with
  | Item.single p, Item.single q => inferInstanceAs (Decidable (p ≤ q))
  | Item.single _, Item.group _ => inferInstanceAs (Decidable True)
  | Item.group _, Item.single _ => inferInstanceAs (Decidable False)
  | Item.group p, Item.group q => inferInstanceAs (Decidable (p ≤ q))

def sortItems (l : List Item) : List Item := List.insertionSort item_le l

/-- Hub.create: check the buffer types of the flat sources agree, take
the maximal context size, sort sources and sinks, build and permute the
connection table, then read the per-source element counts in the final
order and total them.  The enum argument supplies the iteration order
of the Python sets. -/
def hub_create (enum : Finset Item → List Item)
    (source_set sink_set : Finset Item) (layout : LNode)
    (cons : List (NodePath × NodePath)) : Except LayoutErr Hub := do
  let btypes ← (flatten (enum source_set)).mapM (fun s => do
    let sh ← get_shape s layout
    pure (validate_shape_template sh))
  match btypes with
  | [] => Except.error LayoutErr.valueErr
  | b :: bs =>
    if bs.foldl Nat.min b ≠ bs.foldl Nat.max b then
      Except.error LayoutErr.inconsistentBufferType
    else do
      let ctxs ← (flatten (enum source_set)).mapM (fun s => get_context s layout)
      match ctxs with
      | [] => Except.error LayoutErr.valueErr
      | c :: cs =>
        let srcs := sortItems (enum source_set)
        let sinks := sortItems (enum sink_set)
        match permute_rows srcs (set_up_connection_table srcs sinks cons)
            sinks.length with
        | none => Except.error LayoutErr.unsatisfiableLayout
        | some res => do
          let sizes ← res.1.mapM (fun s => do
            let sh ← get_shape s layout
            pure (get_feature_size sh))
          Except.ok
            { sources := res.1, sinks := sinks, btype := b,
              context_size := cs.foldl Nat.max c,
              connection_table := res.2, sizes := sizes, size := sizes.sum }

/-- remaining_sources.remove(s) for every s in the closed source set;
Python list.remove raises ValueError when the element is absent. -/
def remove_all (toRemove : List Item) (remaining : List Item) :
    Except LayoutErr (List Item) :=
  toRemove.foldlM (fun rem s =>
    if s ∈ rem then Except.ok (rem.erase s) else Except.error LayoutErr.valueErr)
    remaining

/-- The while loop of group_into_hubs, with fuel for the loop count. -/
def group_loop (enum : Finset Item → List Item) (layout : LNode)
    (cons : List (NodePath × NodePath)) (mcons : List (Item × Item)) :
    Nat → List Item → Except LayoutErr (List Hub)
  | _, [] => Except.ok []
  | 0, _ :: _ => Except.error LayoutErr.fuel
  | fuel + 1, node :: rest => do
    let cl ← match get_forward_closure node mcons with
      | some cl => Except.ok cl
      | none => Except.error LayoutErr.fuel
    let remaining2 ← remove_all (enum cl.1) (node :: rest)
    let hub ← hub_create enum cl.1 cl.2 layout cons
    let hubs ← group_loop enum layout cons mcons fuel remaining2
    Except.ok (hub :: hubs)

def group_into_hubs (enum : Finset Item → List Item) (remaining : List Item)
    (fos : List (List NodePath)) (cons : List (NodePath × NodePath))
    (layout : LNode) : Except LayoutErr (List Hub) :=
  group_loop enum layout cons (merge_connections cons fos)
    (remaining.length + 1) remaining

/-! The assembler: layout_hubs and create_layout. -/

/-- layout_hubs: write every slice and owning hub index produced by
get_indices into the layout tree; a tuple-valued buffer name cannot be
split into segments (Python AttributeError). -/
def layout_hubs (hubs : List Hub) (layout : LNode) : Except LayoutErr LNode :=
  hubs.enum.foldlM (fun ly nh =>
    nh.2.get_indices.foldlM (fun ly2 bs =>
      match bs.1 with
      | Item.group _ => Except.error LayoutErr.attributeErr
      | Item.single p =>
        update_path p (fun a => { a with slice := some bs.2, hub := some nh.1 })
          ly2) ly) layout

def hub_le (a b : Hub) : Prop := a.btype ≤ b.btype

instance : DecidableRel hub_le := fun a b =>
  inferInstanceAs (Decidable (a.btype ≤ b.btype))

/-- create_layout: extract forced orders (fatal overlap check first)
and connections, build the stub tree, enumerate sources, group into
hubs, sort the hubs by buffer type (Python sorted is stable), write the
slices, then give the synthetic parameters leaf its shape: a plain
tuple (width,), whose feature size is the slice width and which carries
buffer-type tag 0 and no context. -/
def create_layout (enum : Finset Item → List Item)
    (layers : List (String × Layer)) : Except LayoutErr (List Hub × LNode) := do
  let fos ← get_forced_orders layers
  let cons := get_connections layers
  let layout := create_layout_stub layers
  let sks ← get_all_sinks_and_sources fos cons layout
  let hubs ← group_into_hubs enum sks.2 fos cons layout
  let hubs2 := List.insertionSort hub_le hubs
  let layout2 ← layout_hubs hubs2 layout
  let pnode ← get_by_path "parameters" layout2
  match pnode with
  | LNode.view _ _ => Except.error LayoutErr.keyErr
  | LNode.array a =>
    match a.slice with
    | none => Except.error LayoutErr.keyErr
    | some sl => do
      let layout3 ← update_path "parameters"
        (fun nd =>
          { nd with shape := some (Shape.mk (sl.2 - sl.1) 0 0) })
        layout2
      Except.ok (hubs2, layout3)
instance : IsTotal Item item_le :=
  ⟨fun a b => by
    cases a <;> cases b <;> simp [item_le] <;> exact le_total _ _⟩

instance : IsTrans Item item_le :=
  ⟨fun a b c hab hbc => by
    cases a <;> cases b <;> cases c <;> simp [item_le] at * <;>
      exact le_trans hab hbc⟩

instance : IsAntisymm Item item_le :=
  ⟨fun a b hab hba => by
    cases a with
    | single p =>
      cases b with
      | single q =>
        have h1 : p ≤ q := hab
        have h2 : q ≤ p := hba
        rw [le_antisymm h1 h2]
      | group q => exact absurd hba (by simp [item_le])
    | group p =>
      cases b with
      | single q => exact absurd hab (by simp [item_le])
      | group q =>
        have h1 : p ≤ q := hab
        have h2 : q ≤ p := hba
        rw [le_antisymm h1 h2]⟩

theorem insertionSort_item_perm_eq {l1 l2 : List Item} (h : l1.Perm l2) :
    List.insertionSort item_le l1 = List.insertionSort item_le l2 :=
  List.eq_of_perm_of_sorted
    ((List.perm_insertionSort _ l1).trans (h.trans (List.perm_insertionSort _ l2).symm))
    (List.sorted_insertionSort _ l1) (List.sorted_insertionSort _ l2)

/-- The canonical set enumeration used for concrete runs: the elements
in sorted order (lifted through the multiset quotient).  The
determinism theorem shows that any enumeration of the same sets yields
the same successful outputs. -/
def default_enum (s : Finset Item) : List Item :=
  Quot.lift (List.insertionSort item_le)
    (fun _ _ hab => insertionSort_item_perm_eq hab) s.val

def except_is_ok {ε α : Type} : Except ε α → Bool
  | Except.ok _ => true
  | Except.error _ => false
theorem has_overlap_iff (fos : List (List NodePath)) :
    has_overlap fos = true ↔
      ∃ i j, i ≠ j ∧ i < fos.length ∧ j < fos.length ∧
        ∃ x ∈ fos.getD i [], x ∈ fos.getD j [] := by
  unfold has_overlap
  simp only [List.any_eq_true, Bool.and_eq_true, decide_eq_true_eq]
  constructor
  · rintro ⟨⟨i, fo⟩, hif, ⟨j, go⟩, hjg, hne, x, hx1, hx2⟩
    rw [List.mk_mem_enum_iff_getElem?] at hif hjg
    have hi : i < fos.length := by
      by_contra hc
      rw [List.getElem?_eq_none (by omega)] at hif
      simp at hif
    have hj : j < fos.length := by
      by_contra hc
      rw [List.getElem?_eq_none (by omega)] at hjg
      simp at hjg
    have hgdi : fos.getD i [] = fo := by
      rw [List.getD_eq_getElem?_getD, hif]
      rfl
    have hgdj : fos.getD j [] = go := by
      rw [List.getD_eq_getElem?_getD, hjg]
      rfl
    exact ⟨i, j, hne, hi, hj, x, by rw [hgdi]; exact hx1, by rw [hgdj]; exact hx2⟩
  · rintro ⟨i, j, hne, hi, hj, x, hx1, hx2⟩
    refine ⟨(i, fos.getD i []), ?_, ⟨(j, fos.getD j []), ?_, hne, x, hx1, hx2⟩⟩
    · rw [List.mk_mem_enum_iff_getElem?, List.getD_eq_getElem _ _ hi]
      exact List.getElem?_eq_getElem hi
    · rw [List.mk_mem_enum_iff_getElem?, List.getD_eq_getElem _ _ hj]
      exact List.getElem?_eq_getElem hj

/-- C8: get_forced_orders raises the fatal overlap error iff two
forced-order tuples at distinct positions share an endpoint path, and
the error surfaces during extraction: create_layout stops with that
same error before any hub is constructed, whatever set enumeration is
in effect. -/
theorem claim_C8_forced_order_overlap (layers : List (String × Layer)) :
    (get_forced_orders layers = Except.error LayoutErr.overlappingForcedOrder ↔
      ∃ i j, i ≠ j ∧ i < (forced_orders_list layers).length ∧
        j < (forced_orders_list layers).length ∧
        ∃ x ∈ (forced_orders_list layers).getD i [],
          x ∈ (forced_orders_list layers).getD j []) ∧
    (get_forced_orders layers = Except.error LayoutErr.overlappingForcedOrder →
      ∀ enum, create_layout enum layers =
        Except.error LayoutErr.overlappingForcedOrder) := by
  constructor
  · rw [← has_overlap_iff]
    unfold get_forced_orders
    split
    case isTrue h => simp [h]
    case isFalse h =>
      simp only [Bool.not_eq_true] at h
      simp [h]
  · intro h enum
    rw [create_layout, h]
    rfl

/-- Witness for C8: two layers whose dotted names collide produce two
equal forced-order tuples at distinct positions, which overlap. -/
theorem claim_C8_witness :
    (get_forced_orders
        [("A", Layer.mk [] [] [("b.parameters.c", Shape.mk 1 0 0)] [] []),
         ("A.parameters.b", Layer.mk [] [] [("c", Shape.mk 1 0 0)] [] [])] =
      Except.error LayoutErr.overlappingForcedOrder) ∧
    create_layout default_enum
        [("A", Layer.mk [] [] [("b.parameters.c", Shape.mk 1 0 0)] [] []),
         ("A.parameters.b", Layer.mk [] [] [("c", Shape.mk 1 0 0)] [] [])] =
      Except.error LayoutErr.overlappingForcedOrder :=
  ⟨by decide,
    (claim_C8_forced_order_overlap _).2 (by decide) default_enum⟩
theorem except_bind_ok {ε α β : Type} {x : Except ε α} {f : α → Except ε β}
    {b : β} (h : (x >>= f) = Except.ok b) :
    ∃ a, x = Except.ok a ∧ f a = Except.ok b := by
  cases x with
  | error e => simp [Bind.bind, Except.bind] at h
  | ok a => exact ⟨a, rfl, by simpa [Bind.bind, Except.bind] using h⟩

theorem except_mapM_ok {α β ε : Type} {f : α → Except ε β} :
    ∀ {l : List α} {r : List β}, l.mapM f = Except.ok r →
      r.length = l.length ∧
      ∀ i (da : α) (db : β), i < l.length →
        ∃ b, f (l.getD i da) = Except.ok b ∧ r.getD i db = b := by
  intro l
  induction l with
  | nil =>
    intro r h
    rw [List.mapM_nil] at h
    simp only [pure, Except.pure, Except.ok.injEq] at h
    subst h
    exact ⟨rfl, fun i da db hi => absurd hi (by simp)⟩
  | cons a t ih =>
    intro r h
    rw [List.mapM_cons] at h
    obtain ⟨b, hb, h2⟩ := except_bind_ok h
    obtain ⟨rs, hrs, h3⟩ := except_bind_ok h2
    simp only [pure, Except.pure, Except.ok.injEq] at h3
    subst h3
    obtain ⟨hlen, hidx⟩ := ih hrs
    refine ⟨by simp [hlen], ?_⟩
    intro i da db hi
    cases i with
    | zero => exact ⟨b, by simpa using hb, rfl⟩
    | succ i =>
      rw [List.getD_cons_succ, List.getD_cons_succ]
      exact hidx i da db (by simpa using hi)

/-- Inversion of a successful Hub.create. -/
theorem hub_create_ok {enum : Finset Item → List Item}
    {srcSet sinkSet : Finset Item} {layout : LNode}
    {cons : List (NodePath × NodePath)} {h : Hub}
    (hok : hub_create enum srcSet sinkSet layout cons = Except.ok h) :
    ∃ res, permute_rows (sortItems (enum srcSet))
        (set_up_connection_table (sortItems (enum srcSet))
          (sortItems (enum sinkSet)) cons)
        (sortItems (enum sinkSet)).length = some res ∧
      h.sources = res.1 ∧ h.connection_table = res.2 ∧
      h.sinks = sortItems (enum sinkSet) ∧
      res.1.mapM (fun s => do
        let sh ← get_shape s layout
        pure (get_feature_size sh)) = Except.ok h.sizes ∧
      h.size = h.sizes.sum := by
  unfold hub_create at hok
  obtain ⟨btypes, hbt, hok⟩ := except_bind_ok hok
  cases btypes with
  | nil => simp at hok
  | cons b bs =>
    simp only [] at hok
    split at hok
    case isTrue => simp at hok
    case isFalse hne =>
      obtain ⟨ctxs, hcx, hok⟩ := except_bind_ok hok
      cases ctxs with
      | nil => simp at hok
      | cons c cs =>
        simp only [] at hok
        split at hok
        case h_1 => simp at hok
        case h_2 res heq =>
          obtain ⟨sizes, hsz, hok⟩ := except_bind_ok hok
          simp only [Except.ok.injEq] at hok
          subst hok
          exact ⟨res, heq, rfl, rfl, rfl, hsz, rfl⟩
theorem offsets_length (sizes : List Nat) :
    (offsets sizes).length = sizes.length + 1 := by
  simp [offsets]

theorem offsets_getD (sizes : List Nat) (i : Nat) (h : i ≤ sizes.length) :
    (offsets sizes).getD i 0 = (sizes.take i).sum := by
  unfold offsets
  rw [List.getD_eq_getElem _ _ (by simp; omega)]
  simp

/-- Length of the source part of get_indices. -/
theorem get_indices_src_length (h : Hub) (hl : h.sizes.length = h.sources.length) :
    (h.sources.zip ((offsets h.sizes).zip (offsets h.sizes).tail)).length =
      h.sources.length := by
  rw [List.length_zip, List.length_zip, List.length_tail, offsets_length, hl]
  omega

/-- The i-th entry of get_indices is the i-th source with the slice
from the i-th partial sum to the next. -/
theorem get_indices_source (h : Hub) (hl : h.sizes.length = h.sources.length)
    (i : Nat) (hi : i < h.sources.length) :
    h.get_indices.getD i (Item.single "", (0, 0)) =
      (Item.single (h.sources.getD i ""),
        ((h.sizes.take i).sum, (h.sizes.take (i + 1)).sum)) := by
  unfold Hub.get_indices
  rw [List.getD_append _ _ _ _ (by rw [List.length_map, get_indices_src_length h hl]; exact hi)]
  rw [List.getD_eq_getElem _ _ (by rw [List.length_map, get_indices_src_length h hl]; exact hi)]
  have hiz : i < (h.sources.zip ((offsets h.sizes).zip (offsets h.sizes).tail)).length := by
    rw [get_indices_src_length h hl]
    exact hi
  rw [List.getElem_map, List.getElem_zip, List.getElem_zip]
  have hb1 : i < (offsets h.sizes).length := by
    rw [offsets_length]
    omega
  have hb2 : i < (offsets h.sizes).tail.length := by
    rw [List.length_tail, offsets_length]
    omega
  have h1 : (offsets h.sizes)[i] = (h.sizes.take i).sum := by
    rw [← List.getD_eq_getElem _ 0, offsets_getD _ _ (by omega)]
  have h2 : (offsets h.sizes).tail[i] = (h.sizes.take (i + 1)).sum := by
    rw [List.getElem_tail, ← List.getD_eq_getElem _ 0, offsets_getD _ _ (by omega)]
  rw [List.getD_eq_getElem _ _ hi] at *
  simp only [h1, h2]

/-- The entry after the sources is the j-th sink with the argmax-based
slice. -/
theorem get_indices_sink (h : Hub) (hl : h.sizes.length = h.sources.length)
    (j : Nat) (hj : j < h.sinks.length) :
    h.get_indices.getD (h.sources.length + j) (Item.single "", (0, 0)) =
      (h.sinks.getD j (Item.single ""),
        ((offsets h.sizes).getD (argmax (column h.connection_table j)) 0,
         (offsets h.sizes).getD
           (h.connection_table.length -
             argmax ((column h.connection_table j).reverse)) 0)) := by
  unfold Hub.get_indices
  rw [List.getD_append_right _ _ _ _
    (by rw [List.length_map, get_indices_src_length h hl]; omega)]
  rw [List.length_map, get_indices_src_length h hl]
  have hj2 : h.sources.length + j - h.sources.length = j := by omega
  rw [hj2]
  rw [List.getD_eq_getElem _ _ (by simp [List.enum_length]; exact hj)]
  have hje : j < h.sinks.enum.length := by simp [List.enum_length]; exact hj
  rw [List.getElem_map, List.getElem_enum]
  rw [List.getD_eq_getElem _ _ hj]
/-- C2: for every solved hub, the source entries of get_indices are the
consecutive half-open ranges that tile the interval from 0 to hub.size:
the i-th source gets the range from the sum of the sizes before i to
that sum plus its own size, and hub.size is the sum of the element
counts that Hub.create read for the hub's sources. -/
theorem claim_C2_source_tiling {enum : Finset Item → List Item}
    {srcSet sinkSet : Finset Item} {layout : LNode}
    {cons : List (NodePath × NodePath)} {h : Hub}
    (hok : hub_create enum srcSet sinkSet layout cons = Except.ok h) :
    h.size = h.sizes.sum ∧
    h.sizes.length = h.sources.length ∧
    (∀ i, i < h.sources.length →
      h.get_indices.getD i (Item.single "", (0, 0)) =
        (Item.single (h.sources.getD i ""),
          ((h.sizes.take i).sum, (h.sizes.take (i + 1)).sum))) ∧
    (∀ i, i < h.sources.length →
      ∃ sh, get_shape (h.sources.getD i "") layout = Except.ok sh ∧
        h.sizes.getD i 0 = get_feature_size sh) := by
  obtain ⟨res, hperm, hsrc, hct, hsink, hszm, hsz⟩ := hub_create_ok hok
  obtain ⟨hlen, hidx⟩ := except_mapM_ok hszm
  have hl : h.sizes.length = h.sources.length := by
    rw [hlen, ← hsrc]
  refine ⟨hsz, hl, fun i hi => get_indices_source h hl i hi, ?_⟩
  intro i hi
  obtain ⟨b, hb, hdb⟩ := hidx i "" 0 (by rw [← hsrc]; exact hi)
  obtain ⟨sh, hsh, hpure⟩ := except_bind_ok hb
  simp only [pure, Except.pure, Except.ok.injEq] at hpure
  refine ⟨sh, ?_, ?_⟩
  · rw [hsrc]
    exact hsh
  · rw [hdb, ← hpure]
/-- Inversion of a successful permute_rows. -/
theorem permute_rows_ok {sources : List Item} {ct : List (List Nat)}
    {ncols : Nat} {res : List NodePath × List (List Nat)}
    (h : permute_rows sources ct ncols = some res) :
    ∃ p : List (List Nat), p.Perm (nested_indices sources) ∧
      res.1 = p.flatten.map (fun i => (flatten sources).getD i "") ∧
      res.2 = select_rows ct p.flatten ∧
      can_be_connected_with_single_buffer res.2 ncols = true := by
  rw [permute_rows] at h
  obtain ⟨p, hp, hf⟩ := findSome?_mem_of_eq_some h
  rw [mem_permutations_lex] at hp
  rw [permute_step] at hf
  split at hf
  case isFalse => simp at hf
  case isTrue hc =>
    rw [Option.some_inj] at hf
    subst hf
    exact ⟨p, hp, rfl, rfl, hc⟩

theorem select_rows_length (ct : List (List Nat)) (pf : List Nat) :
    (select_rows ct pf).length = pf.length := by
  simp [select_rows]

theorem select_rows_getD (ct : List (List Nat)) (pf : List Nat) (r : Nat)
    (hr : r < pf.length) :
    (select_rows ct pf).getD r [] = ct.getD (pf.getD r 0) [] := by
  unfold select_rows
  rw [List.getD_eq_getElem _ _ (by simpa using hr), List.getElem_map,
    List.getD_eq_getElem _ _ hr]

theorem map_getD_getD (pf : List Nat) (f : Nat → NodePath) (r : Nat)
    (hr : r < pf.length) :
    (pf.map f).getD r "" = f (pf.getD r 0) := by
  rw [List.getD_eq_getElem _ _ (by simpa using hr), List.getElem_map,
    List.getD_eq_getElem _ _ hr]

theorem select_rows_le_one (base : List (List Nat)) (pf : List Nat)
    (hb : ∀ row ∈ base, ∀ x ∈ row, x ≤ 1) :
    ∀ row ∈ select_rows base pf, ∀ x ∈ row, x ≤ 1 := by
  intro row hrow
  simp only [select_rows, List.mem_map] at hrow
  obtain ⟨i, hi, rfl⟩ := hrow
  by_cases h : i < base.length
  · rw [List.getD_eq_getElem _ _ h]
    exact hb _ (List.getElem_mem h)
  · rw [List.getD_eq_default _ _ (by omega)]
    intro x hx
    simp at hx

/-- Every index inside the nested blocks points into the flat source
list. -/
theorem nested_indices_flatten_lt (l : List Item) :
    ∀ k, ∀ i ∈ (nested_indices_from k l).flatten, k ≤ i ∧ i < k + (flatten l).length := by
  induction l with
  | nil => intro k i hi; simp [nested_indices_from] at hi
  | cons it rest ih =>
    intro k i hi
    rw [nested_indices_from, List.flatten_cons, List.mem_append] at hi
    rw [flatten_cons_items, List.length_append]
    rcases hi with hi | hi
    · rw [List.mem_range'] at hi
      constructor
      · omega
      · simp at hi
        omega
    · have := ih (k + it.paths.length) i hi
      omega

theorem foldr_max_le {l : List Nat} {c : Nat} (hb : ∀ x ∈ l, x ≤ c) :
    l.foldr max 0 ≤ c := by
  induction l with
  | nil => simp
  | cons a t ih =>
    simp only [List.foldr_cons]
    have h1 : a ≤ c := hb a (by simp)
    have h2 := ih (fun x hx => hb x (by simp [hx]))
    omega

theorem le_foldr_max {l : List Nat} {x : Nat} (hx : x ∈ l) :
    x ≤ l.foldr max 0 := by
  induction l with
  | nil => simp at hx
  | cons a t ih =>
    simp only [List.foldr_cons]
    rcases List.mem_cons.mp hx with h | h
    · omega
    · have := ih h
      omega

theorem foldr_max_eq_one {l : List Nat} (hb : ∀ x ∈ l, x ≤ 1) (h1 : 1 ∈ l) :
    l.foldr max 0 = 1 :=
  le_antisymm (foldr_max_le hb) (le_foldr_max h1)

theorem indexOf_one_form (p q r0 : Nat) (hq : 1 ≤ q) :
    List.indexOf 1
      (List.replicate p 0 ++ List.replicate q 1 ++ List.replicate r0 0) = p := by
  induction p with
  | zero =>
    cases q with
    | zero => omega
    | succ q =>
      rw [List.replicate_succ]
      simp
  | succ p ih =>
    rw [List.replicate_succ]
    simp only [List.cons_append]
    rw [List.indexOf_cons_ne _ (by omega)]
    rw [ih]

/-- The maximum of an all-zero list sits at position 0. -/
theorem argmax_zero {l : List Nat} (hz : ∀ x ∈ l, x = 0) : argmax l = 0 := by
  unfold argmax
  have h0 : l.foldr max 0 = 0 := by
    refine le_antisymm (foldr_max_le ?_) (Nat.zero_le _)
    intro x hx
    exact le_of_eq (hz x hx)
  rw [h0]
  cases l with
  | nil => rfl
  | cons a t =>
    have ha := hz a (by simp)
    rw [ha]
    exact List.indexOf_cons_self 0 t

/-- The first index of the maximum of a nonempty zeros-ones-zeros
column with at least one 1 is the zero-prefix length. -/
theorem argmax_form (p q r0 : Nat) (hq : 1 ≤ q) :
    argmax (List.replicate p 0 ++ List.replicate q 1 ++ List.replicate r0 0) = p := by
  unfold argmax
  have hb : ∀ x ∈ List.replicate p 0 ++ List.replicate q 1 ++ List.replicate r0 0,
      x ≤ 1 := by
    intro x hx
    simp only [List.mem_append, List.mem_replicate] at hx
    rcases hx with (hx | hx) | hx <;> omega
  have h1 : (1 : Nat) ∈ List.replicate p 0 ++ List.replicate q 1 ++ List.replicate r0 0 := by
    refine List.mem_append.mpr (Or.inl (List.mem_append.mpr (Or.inr ?_)))
    rw [List.mem_replicate]
    exact ⟨by omega, rfl⟩
  rw [foldr_max_eq_one hb h1]
  exact indexOf_one_form p q r0 hq

theorem reverse_form (p q r0 : Nat) :
    (List.replicate p 0 ++ List.replicate q 1 ++ List.replicate r0 0).reverse =
      List.replicate r0 0 ++ List.replicate q 1 ++ List.replicate p 0 := by
  simp [List.reverse_append, List.append_assoc]

theorem column_length (ct : List (List Nat)) (j : Nat) :
    (column ct j).length = ct.length := by
  simp [column]

theorem column_getD (ct : List (List Nat)) (j r : Nat) (hr : r < ct.length) :
    (column ct j).getD r 0 = entry ct r j := by
  unfold column entry
  rw [List.getD_eq_getElem _ _ (by simpa using hr), List.getElem_map,
    List.getD_eq_getElem _ _ hr]
theorem canBe_col {ct : List (List Nat)} {nc j : Nat}
    (h : can_be_connected_with_single_buffer ct nc = true) (hj : j < nc) :
    chg 0 (column ct j) ≤ 2 := by
  unfold can_be_connected_with_single_buffer at h
  simp only [List.all_eq_true, List.mem_range, decide_eq_true_eq] at h
  exact h j hj

/-- The final sources of a solved hub are a permutation of the flat
endpoints of the sorted source entries. -/
theorem hub_sources_perm {enum : Finset Item → List Item}
    {srcSet sinkSet : Finset Item} {layout : LNode}
    {cons : List (NodePath × NodePath)} {h : Hub}
    (hok : hub_create enum srcSet sinkSet layout cons = Except.ok h) :
    h.sources.Perm (flatten (sortItems (enum srcSet))) := by
  obtain ⟨res, hperm, hsrc, hct, hsink, hszm, hsz⟩ := hub_create_ok hok
  obtain ⟨p, hp, hres1, hres2, hcan⟩ := permute_rows_ok hperm
  rw [hsrc, hres1]
  have h2 := (hp.flatten).map
    (fun i => (flatten (sortItems (enum srcSet))).getD i "")
  rw [map_getD_flatten_nested_zero] at h2
  exact h2

/-- C3 (amended): in a solved hub whose flat sources and sinks are
duplicate-free, a sink column containing at least one 1 yields the
slice running from the offset of the first 1-row to the offset one past
the last 1-row; the 1-rows form one contiguous block, and a row carries
a 1 exactly when its producer-to-sink connection is declared with the
producer a top-level source entry — so the sink's slice is the
concatenation of the slices of exactly its registered producers. -/
theorem claim_C3_sink_slice {enum : Finset Item → List Item}
    {srcSet sinkSet : Finset Item} {layout : LNode}
    {cons : List (NodePath × NodePath)} {h : Hub}
    (hok : hub_create enum srcSet sinkSet layout cons = Except.ok h)
    (hnf : h.sources.Nodup) (hns : h.sinks.Nodup)
    (j : Nat) (hj : j < h.sinks.length)
    (hasone : ∃ r, r < h.connection_table.length ∧
      entry h.connection_table r j = 1) :
    ∃ a b, a < b ∧ b ≤ h.sources.length ∧
      h.get_indices.getD (h.sources.length + j) (Item.single "", (0, 0)) =
        (h.sinks.getD j (Item.single ""),
          ((h.sizes.take a).sum, (h.sizes.take b).sum)) ∧
      (∀ r, r < h.sources.length →
        (entry h.connection_table r j = 1 ↔ a ≤ r ∧ r < b)) ∧
      (∀ r, r < h.sources.length →
        (entry h.connection_table r j = 1 ↔
          (∃ t, h.sinks.getD j (Item.single "") = Item.single t ∧
            (h.sources.getD r "", t) ∈ cons) ∧
          Item.single (h.sources.getD r "") ∈ sortItems (enum srcSet))) := by
  have hsperm := hub_sources_perm hok
  obtain ⟨res, hperm, hsrc, hct, hsink, hszm, hsz⟩ := hub_create_ok hok
  obtain ⟨p, hp, hres1, hres2, hcan⟩ := permute_rows_ok hperm
  obtain ⟨hszlen, hszidx⟩ := except_mapM_ok hszm
  have hl : h.sizes.length = h.sources.length := by
    rw [hszlen, ← hsrc]
  have hlct : h.connection_table.length = p.flatten.length := by
    rw [hct, hres2, select_rows_length]
  have hlsrc : h.sources.length = p.flatten.length := by
    rw [hsrc, hres1, List.length_map]
  -- binary column
  have hbin : ∀ row ∈ h.connection_table, ∀ x ∈ row, x ≤ 1 := by
    rw [hct, hres2]
    exact select_rows_le_one _ _
      (set_up_connection_table_le_one (sortItems (enum srcSet))
        (sortItems (enum sinkSet)) cons)
  have hcolb := col_binary h.connection_table j hbin
  -- contiguity of the column
  have hchg : chg 0 (column h.connection_table j) ≤ 2 := by
    rw [hct]
    refine canBe_col hcan ?_
    rw [← hsink]
    exact hj
  obtain ⟨p0, q0, r0, hform⟩ := form_of_chg_le_two _ hcolb hchg
  have hlcol : (column h.connection_table j).length = h.connection_table.length :=
    column_length _ _
  have hlform : p0 + q0 + r0 = h.connection_table.length := by
    rw [← hlcol, hform]
    simp
    omega
  -- the column has a 1, so the middle block is nonempty
  obtain ⟨r1, hr1, he1⟩ := hasone
  have hq0 : 1 ≤ q0 := by
    have hcg := column_getD h.connection_table j r1 hr1
    rw [he1, hform, form_getD] at hcg
    by_contra hq
    rw [if_neg (by omega)] at hcg
    omega
  refine ⟨p0, p0 + q0, by omega, by omega, ?_, ?_, ?_⟩
  · rw [get_indices_sink h hl j hj]
    have ham : argmax (column h.connection_table j) = p0 := by
      rw [hform]
      exact argmax_form p0 q0 r0 hq0
    have hamr : argmax ((column h.connection_table j).reverse) = r0 := by
      rw [hform, reverse_form]
      exact argmax_form r0 q0 p0 hq0
    rw [ham, hamr]
    have hsub : h.connection_table.length - r0 = p0 + q0 := by omega
    rw [hsub, offsets_getD _ _ (by omega), offsets_getD _ _ (by omega)]
  · intro r hr
    have hcg := column_getD h.connection_table j r (by omega)
    rw [hform, form_getD] at hcg
    rw [← hcg]
    split
    · omega
    · omega
  · intro r hr
    have hrp : r < p.flatten.length := by omega
    have hi0mem : p.flatten.getD r 0 ∈ p.flatten := by
      rw [List.getD_eq_getElem _ _ hrp]
      exact List.getElem_mem hrp
    have hi0nested : p.flatten.getD r 0 ∈ (nested_indices (sortItems (enum srcSet))).flatten :=
      (hp.flatten).mem_iff.mp hi0mem
    have hi0lt : p.flatten.getD r 0 <
        (flatten (sortItems (enum srcSet))).length := by
      have := nested_indices_flatten_lt (sortItems (enum srcSet)) 0 _ hi0nested
      omega
    have hentry : entry h.connection_table r j =
        entry (set_up_connection_table (sortItems (enum srcSet))
          (sortItems (enum sinkSet)) cons) (p.flatten.getD r 0) j := by
      unfold entry
      rw [hct, hres2, select_rows_getD _ _ _ hrp]
    have hsrcr : h.sources.getD r "" =
        (flatten (sortItems (enum srcSet))).getD (p.flatten.getD r 0) "" := by
      rw [hsrc, hres1, map_getD_getD _ _ _ hrp]
    have hnf2 : (flatten (sortItems (enum srcSet))).Nodup :=
      hsperm.nodup hnf
    have hns2 : (sortItems (enum sinkSet)).Nodup := by
      rw [← hsink]
      exact hns
    have hiff := table_entry_one_iff (sortItems (enum srcSet))
      (sortItems (enum sinkSet)) cons hnf2 hns2 (p.flatten.getD r 0) j
      hi0lt (by rw [← hsink]; exact hj)
    rw [hentry, hiff, hsrcr, hsink]
/-- C10: in a solved hub, a sink whose declared connections are all
filtered out by set_up_connection_table (for instance because every
producer is a forced-order member, as with the synthetic parameters
consumer) keeps an all-zero column, and the argmax arithmetic of
get_indices then hands that sink the slice (0, hub.size): the whole
hub. -/
theorem claim_C10_zero_column {enum : Finset Item → List Item}
    {srcSet sinkSet : Finset Item} {layout : LNode}
    {cons : List (NodePath × NodePath)} {h : Hub}
    (hok : hub_create enum srcSet sinkSet layout cons = Except.ok h) :
    (∀ j, j < h.sinks.length →
      (∀ st ∈ cons, ¬(Item.single st.1 ∈ sortItems (enum srcSet) ∧
        Item.single st.2 ∈ h.sinks ∧
        List.indexOf (Item.single st.2) h.sinks = j)) →
      ∀ r, entry h.connection_table r j = 0) ∧
    (0 < h.sources.length →
      ∀ j, j < h.sinks.length →
      (∀ r, entry h.connection_table r j = 0) →
      h.get_indices.getD (h.sources.length + j) (Item.single "", (0, 0)) =
        (h.sinks.getD j (Item.single ""), (0, h.size))) := by
  obtain ⟨res, hperm, hsrc, hct, hsink, hszm, hsz⟩ := hub_create_ok hok
  obtain ⟨p, hp, hres1, hres2, hcan⟩ := permute_rows_ok hperm
  obtain ⟨hszlen, hszidx⟩ := except_mapM_ok hszm
  have hl : h.sizes.length = h.sources.length := by
    rw [hszlen, ← hsrc]
  have hlct : h.connection_table.length = p.flatten.length := by
    rw [hct, hres2, select_rows_length]
  have hlsrc : h.sources.length = p.flatten.length := by
    rw [hsrc, hres1, List.length_map]
  constructor
  · intro j hj hnone r
    by_cases hr : r < h.connection_table.length
    · have hentry : entry h.connection_table r j =
          entry (set_up_connection_table (sortItems (enum srcSet))
            (sortItems (enum sinkSet)) cons) (p.flatten.getD r 0) j := by
        unfold entry
        rw [hct, hres2, select_rows_getD _ _ _ (by omega)]
      rw [hentry, set_up_connection_table_entry]
      split
      next hex =>
        obtain ⟨st, hmem, h1, h2, h3, h4⟩ := hex
        exact absurd ⟨h1, by rw [hsink]; exact h2, by rw [hsink]; exact h4⟩
          (hnone st hmem)
      next => rfl
    · unfold entry
      have hd : h.connection_table.getD r [] = [] :=
        List.getD_eq_default _ _ (by omega)
      rw [hd]
      simp
  · intro hpos j hj hz
    rw [get_indices_sink h hl j hj]
    have hcz : ∀ x ∈ column h.connection_table j, x = 0 := by
      intro x hx
      rw [List.mem_iff_getElem] at hx
      obtain ⟨r, hr, hx⟩ := hx
      rw [column_length] at hr
      rw [← hx, ← List.getD_eq_getElem _ 0 (by rw [column_length]; exact hr)]
      rw [column_getD _ _ _ hr]
      exact hz r
    have hcrz : ∀ x ∈ (column h.connection_table j).reverse, x = 0 := by
      intro x hx
      exact hcz x (List.mem_reverse.mp hx)
    rw [argmax_zero hcz, argmax_zero hcrz]
    have h0 : (offsets h.sizes).getD 0 0 = 0 := by
      rw [offsets_getD _ _ (by omega)]
      simp
    have hstop : h.connection_table.length - 0 = h.sizes.length := by omega
    rw [h0, hstop, offsets_getD _ _ (by omega), List.take_length, ← hsz]
/-! Concrete instances used by the hub witnesses. -/

def layoutW : LNode :=
  LNode.view 0
    [("x", LNode.array { shape := some (Shape.mk 2 0 0), index := 0 }),
     ("p", LNode.array { shape := some (Shape.mk 3 0 0), index := 1 }),
     ("q", LNode.array { shape := some (Shape.mk 4 0 0), index := 2 })]

def consW : List (NodePath × NodePath) := [("p", "s"), ("x", "s")]

def hubW : Hub :=
  { sources := ["x", "p", "q"], sinks := [Item.single "s"], btype := 0,
    context_size := 0, connection_table := [[1], [0], [0]],
    sizes := [2, 3, 4], size := 9 }

/-- Witness for C2 at a concrete solved hub. -/
theorem claim_C2_witness :
    hub_create default_enum ({Item.single "x", Item.group ["p", "q"]} : Finset Item)
      ({Item.single "s"} : Finset Item) layoutW consW = Except.ok hubW ∧
    (hubW.size = hubW.sizes.sum ∧
      hubW.sizes.length = hubW.sources.length ∧
      (∀ i, i < hubW.sources.length →
        hubW.get_indices.getD i (Item.single "", (0, 0)) =
          (Item.single (hubW.sources.getD i ""),
            ((hubW.sizes.take i).sum, (hubW.sizes.take (i + 1)).sum))) ∧
      (∀ i, i < hubW.sources.length →
        ∃ sh, get_shape (hubW.sources.getD i "") layoutW = Except.ok sh ∧
          hubW.sizes.getD i 0 = get_feature_size sh)) :=
  ⟨by decide,
    @claim_C2_source_tiling default_enum
      ({Item.single "x", Item.group ["p", "q"]} : Finset Item)
      ({Item.single "s"} : Finset Item) layoutW consW hubW (by decide)⟩

/-- C3 counterexample: in the solved hub with sources x and the
forced-order pair (p, q) and the declared connections (p, s) and
(x, s), the sink s is assigned the slice (0, 2), which does not cover
the slice (2, 5) of its declared producer p: the sink slice is not the
minimal contiguous range covering the slices of the producers connected
to it by the declared connection list. -/
theorem claim_C3_counterexample :
    hub_create default_enum ({Item.single "x", Item.group ["p", "q"]} : Finset Item)
      ({Item.single "s"} : Finset Item) layoutW consW = Except.ok hubW ∧
    ("p", "s") ∈ consW ∧
    hubW.get_indices =
      [(Item.single "x", (0, 2)), (Item.single "p", (2, 5)),
       (Item.single "q", (5, 9)), (Item.single "s", (0, 2))] ∧
    (hubW.get_indices.getD 3 (Item.single "", (0, 0))).2.2 <
      (hubW.get_indices.getD 1 (Item.single "", (0, 0))).2.2 := by
  refine ⟨by decide, by decide, by decide, by decide⟩

/-- Witness for the amended C3 at the same concrete hub. -/
theorem claim_C3_witness :
    (hub_create default_enum ({Item.single "x", Item.group ["p", "q"]} : Finset Item)
        ({Item.single "s"} : Finset Item) layoutW consW = Except.ok hubW ∧
      hubW.sources.Nodup ∧ hubW.sinks.Nodup ∧ 0 < hubW.sinks.length ∧
      (∃ r, r < hubW.connection_table.length ∧
        entry hubW.connection_table r 0 = 1)) ∧
    (∃ a b, a < b ∧ b ≤ hubW.sources.length ∧
      hubW.get_indices.getD (hubW.sources.length + 0) (Item.single "", (0, 0)) =
        (hubW.sinks.getD 0 (Item.single ""),
          ((hubW.sizes.take a).sum, (hubW.sizes.take b).sum)) ∧
      (∀ r, r < hubW.sources.length →
        (entry hubW.connection_table r 0 = 1 ↔ a ≤ r ∧ r < b)) ∧
      (∀ r, r < hubW.sources.length →
        (entry hubW.connection_table r 0 = 1 ↔
          (∃ t, hubW.sinks.getD 0 (Item.single "") = Item.single t ∧
            (hubW.sources.getD r "", t) ∈ consW) ∧
          Item.single (hubW.sources.getD r "") ∈
            sortItems (default_enum ({Item.single "x", Item.group ["p", "q"]} : Finset Item))))) :=
  ⟨⟨by decide, by decide, by decide, by decide, ⟨0, by decide, by decide⟩⟩,
    @claim_C3_sink_slice default_enum
      ({Item.single "x", Item.group ["p", "q"]} : Finset Item)
      ({Item.single "s"} : Finset Item) layoutW consW hubW (by decide)
      (by decide) (by decide) 0 (by decide) ⟨0, by decide, by decide⟩⟩

def layoutP : LNode :=
  LNode.view 0
    [("parameters", LNode.array { shape := none, index := 0 }),
     ("A", LNode.view 1
       [("parameters", LNode.view 2
         [("w", LNode.array { shape := some (Shape.mk 5 0 0), index := 0 })])])]

def hubP : Hub :=
  { sources := ["A.parameters.w"], sinks := [Item.single "parameters"],
    btype := 0, context_size := 0, connection_table := [[0]],
    sizes := [5], size := 5 }

/-- Witness for C10: the parameters hub of a one-layer registry; the
declared connection's producer sits inside the forced-order tuple, the
parameters column stays all zero, and the parameters sink receives the
whole hub range (0, 5). -/
theorem claim_C10_witness :
    (hub_create default_enum ({Item.group ["A.parameters.w"]} : Finset Item)
        ({Item.single "parameters"} : Finset Item) layoutP
        [("A.parameters.w", "parameters")] = Except.ok hubP ∧
      0 < hubP.sinks.length ∧ 0 < hubP.sources.length ∧
      (∀ st ∈ ([("A.parameters.w", "parameters")] : List (NodePath × NodePath)),
        ¬(Item.single st.1 ∈
            sortItems (default_enum ({Item.group ["A.parameters.w"]} : Finset Item)) ∧
          Item.single st.2 ∈ hubP.sinks ∧
          List.indexOf (Item.single st.2) hubP.sinks = 0))) ∧
    (∀ r, entry hubP.connection_table r 0 = 0) ∧
    hubP.get_indices.getD (hubP.sources.length + 0) (Item.single "", (0, 0)) =
      (hubP.sinks.getD 0 (Item.single ""), (0, hubP.size)) := by
  have hok : hub_create default_enum ({Item.group ["A.parameters.w"]} : Finset Item)
      ({Item.single "parameters"} : Finset Item) layoutP
      [("A.parameters.w", "parameters")] = Except.ok hubP := by decide
  have hzc : ∀ r, entry hubP.connection_table r 0 = 0 :=
    (@claim_C10_zero_column default_enum
      ({Item.group ["A.parameters.w"]} : Finset Item)
      ({Item.single "parameters"} : Finset Item) layoutP
      [("A.parameters.w", "parameters")] hubP hok).1 0 (by decide) (by decide)
  exact ⟨⟨hok, by decide, by decide, by decide⟩, hzc,
    (@claim_C10_zero_column default_enum
      ({Item.group ["A.parameters.w"]} : Finset Item)
      ({Item.single "parameters"} : Finset Item) layoutP
      [("A.parameters.w", "parameters")] hubP hok).2 (by decide) 0 (by decide) hzc⟩
/-! Correctness of the forward closure. -/

theorem mem_ends_of {α : Type} [DecidableEq α] {cons : List (α × α)}
    {S : Finset α} {x : α} :
    x ∈ ends_of cons S ↔ ∃ s, (s, x) ∈ cons ∧ s ∈ S := by
  unfold ends_of
  rw [List.mem_toFinset, List.mem_map]
  constructor
  · rintro ⟨c, hc, rfl⟩
    rw [List.mem_filter, decide_eq_true_eq] at hc
    exact ⟨c.1, hc.1, hc.2⟩
  · rintro ⟨s, hmem, hs⟩
    exact ⟨(s, x), by rw [List.mem_filter, decide_eq_true_eq]; exact ⟨hmem, hs⟩, rfl⟩

theorem mem_starts_of {α : Type} [DecidableEq α] {cons : List (α × α)}
    {K : Finset α} {x : α} :
    x ∈ starts_of cons K ↔ ∃ e, (x, e) ∈ cons ∧ e ∈ K := by
  unfold starts_of
  rw [List.mem_toFinset, List.mem_map]
  constructor
  · rintro ⟨c, hc, rfl⟩
    rw [List.mem_filter, decide_eq_true_eq] at hc
    exact ⟨c.2, hc.1, hc.2⟩
  · rintro ⟨e, hmem, he⟩
    exact ⟨(x, e), by rw [List.mem_filter, decide_eq_true_eq]; exact ⟨hmem, he⟩, rfl⟩

theorem ends_of_mono {α : Type} [DecidableEq α] {cons : List (α × α)}
    {S S2 : Finset α} (h : S ⊆ S2) : ends_of cons S ⊆ ends_of cons S2 := by
  intro x hx
  rw [mem_ends_of] at hx ⊢
  obtain ⟨s, hmem, hs⟩ := hx
  exact ⟨s, hmem, h hs⟩

theorem starts_of_mono {α : Type} [DecidableEq α] {cons : List (α × α)}
    {K K2 : Finset α} (h : K ⊆ K2) : starts_of cons K ⊆ starts_of cons K2 := by
  intro x hx
  rw [mem_starts_of] at hx ⊢
  obtain ⟨e, hmem, he⟩ := hx
  exact ⟨e, hmem, h he⟩

theorem ends_of_card_le {α : Type} [DecidableEq α] (cons : List (α × α))
    (S : Finset α) : (ends_of cons S).card ≤ cons.length := by
  unfold ends_of
  calc ((cons.filter (fun c => decide (c.1 ∈ S))).map (fun c => c.2)).toFinset.card
      ≤ ((cons.filter (fun c => decide (c.1 ∈ S))).map (fun c => c.2)).length :=
        List.toFinset_card_le _
    _ = (cons.filter (fun c => decide (c.1 ∈ S))).length := List.length_map _ _
    _ ≤ cons.length := List.length_filter_le _ _

theorem starts_of_card_le {α : Type} [DecidableEq α] (cons : List (α × α))
    (K : Finset α) : (starts_of cons K).card ≤ cons.length := by
  unfold starts_of
  calc ((cons.filter (fun c => decide (c.2 ∈ K))).map (fun c => c.1)).toFinset.card
      ≤ ((cons.filter (fun c => decide (c.2 ∈ K))).map (fun c => c.1)).length :=
        List.toFinset_card_le _
    _ = (cons.filter (fun c => decide (c.2 ∈ K))).length := List.length_map _ _
    _ ≤ cons.length := List.length_filter_le _ _

/-- Running the growing loop from an expanding pair reaches the least
fixed point above it. -/
theorem fc_loop_spec {α : Type} [DecidableEq α] (cons : List (α × α)) :
    ∀ fuel (S K : Finset α), S ⊆ starts_of cons K → K ⊆ ends_of cons S →
      2 * cons.length < fuel + (S.card + K.card) →
      ∃ S2 K2, fc_loop cons fuel S K = some (S2, K2) ∧
        S ⊆ S2 ∧ K ⊆ K2 ∧
        S2 = starts_of cons K2 ∧ K2 = ends_of cons S2 ∧
        (∀ S0 K0 : Finset α, starts_of cons K0 ⊆ S0 → ends_of cons S0 ⊆ K0 →
          S ⊆ S0 → K ⊆ K0 → S2 ⊆ S0 ∧ K2 ⊆ K0) := by
  intro fuel
  induction fuel with
  | zero =>
    intro S K hS hK hfuel
    exfalso
    have h1 : S.card ≤ cons.length :=
      le_trans (Finset.card_le_card hS) (starts_of_card_le cons K)
    have h2 : K.card ≤ cons.length :=
      le_trans (Finset.card_le_card hK) (ends_of_card_le cons S)
    omega
  | succ fuel ih =>
    intro S K hS hK hfuel
    rw [fc_loop]
    split
    case isTrue hgrow =>
      have hSn : S ⊆ starts_of cons K := hS
      have hKn : K ⊆ ends_of cons S := hK
      have hinv1 : starts_of cons K ⊆ starts_of cons (ends_of cons S) :=
        starts_of_mono hKn
      have hinv2 : ends_of cons S ⊆ ends_of cons (starts_of cons K) :=
        ends_of_mono hSn
      have hcards : S.card ≤ (starts_of cons K).card :=
        Finset.card_le_card hS
      have hcardk : K.card ≤ (ends_of cons S).card :=
        Finset.card_le_card hK
      obtain ⟨S2, K2, hloop, hs2, hk2, hfix1, hfix2, hmin⟩ :=
        ih (starts_of cons K) (ends_of cons S) hinv1 hinv2 (by omega)
      refine ⟨S2, K2, hloop, le_trans hS hs2, le_trans hK hk2,
        hfix1, hfix2, ?_⟩
      intro S0 K0 hc1 hc2 hS0 hK0
      exact hmin S0 K0 hc1 hc2
        (le_trans (starts_of_mono hK0) hc1)
        (le_trans (ends_of_mono hS0) hc2)
    case isFalse hng =>
      push_neg at hng
      have he1 : S = starts_of cons K :=
        Finset.eq_of_subset_of_card_le hS hng.1
      have he2 : K = ends_of cons S :=
        Finset.eq_of_subset_of_card_le hK hng.2
      exact ⟨S, K, rfl, le_refl _, le_refl _, he1,
        he2, fun S0 K0 _ _ hS0 hK0 => ⟨hS0, hK0⟩⟩
/-- C6: get_forward_closure terminates on every seed and finite
connection list, returning a pair that contains the seed among the
sources, is closed under taking consumers of sources and producers of
sinks, and is the smallest such pair: the connected component of the
seed in the bipartite producer/consumer graph. -/
theorem claim_C6_forward_closure {α : Type} [DecidableEq α] (node : α)
    (cons : List (α × α)) :
    ∃ S K, get_forward_closure node cons = some (S, K) ∧
      node ∈ S ∧
      (∀ s ∈ S, ∀ e, (s, e) ∈ cons → e ∈ K) ∧
      (∀ e ∈ K, ∀ s, (s, e) ∈ cons → s ∈ S) ∧
      (∀ S0 K0 : Finset α, node ∈ S0 →
        (∀ s ∈ S0, ∀ e, (s, e) ∈ cons → e ∈ K0) →
        (∀ e ∈ K0, ∀ s, (s, e) ∈ cons → s ∈ S0) →
        S ⊆ S0 ∧ K ⊆ K0) := by
  by_cases hout : ∃ e, (node, e) ∈ cons
  case pos =>
    obtain ⟨e0, he0⟩ := hout
    have hinv1 : ({node} : Finset α) ⊆ starts_of cons (ends_of cons {node}) := by
      intro x hx
      rw [Finset.mem_singleton] at hx
      subst hx
      rw [mem_starts_of]
      exact ⟨e0, he0, mem_ends_of.mpr ⟨x, he0, Finset.mem_singleton_self x⟩⟩
    obtain ⟨S2, K2, hloop, hs2, hk2, hfix1, hfix2, hmin⟩ :=
      fc_loop_spec cons (2 * cons.length + 2) {node} (ends_of cons {node})
        hinv1 (le_refl _) (by omega)
    refine ⟨S2, K2, hloop, hs2 (Finset.mem_singleton_self node), ?_, ?_, ?_⟩
    · intro s hs e hse
      rw [hfix2, mem_ends_of]
      exact ⟨s, hse, hs⟩
    · intro e he s hse
      rw [hfix1, mem_starts_of]
      exact ⟨e, hse, he⟩
    · intro S0 K0 hn hc1 hc2
      refine hmin S0 K0 ?_ ?_ ?_ ?_
      · intro x hx
        rw [mem_starts_of] at hx
        obtain ⟨e, hmem, he⟩ := hx
        exact hc2 e he x hmem
      · intro x hx
        rw [mem_ends_of] at hx
        obtain ⟨s, hmem, hs⟩ := hx
        exact hc1 s hs x hmem
      · intro x hx
        rw [Finset.mem_singleton] at hx
        subst hx
        exact hn
      · intro x hx
        rw [mem_ends_of] at hx
        obtain ⟨s, hmem, hs⟩ := hx
        rw [Finset.mem_singleton] at hs
        subst hs
        exact hc1 _ hn x hmem
  case neg =>
    push_neg at hout
    have hend : ends_of cons ({node} : Finset α) = ∅ := by
      rw [Finset.eq_empty_iff_forall_not_mem]
      intro x hx
      rw [mem_ends_of] at hx
      obtain ⟨s, hmem, hs⟩ := hx
      rw [Finset.mem_singleton] at hs
      subst hs
      exact hout x hmem
    have hst : starts_of cons (∅ : Finset α) = ∅ := by
      rw [Finset.eq_empty_iff_forall_not_mem]
      intro x hx
      rw [mem_starts_of] at hx
      obtain ⟨e, hmem, he⟩ := hx
      simp at he
    refine ⟨{node}, ∅, ?_, Finset.mem_singleton_self node, ?_, ?_, ?_⟩
    · unfold get_forward_closure
      rw [hend]
      have hc : ¬((({node} : Finset α)).card < (starts_of cons (∅ : Finset α)).card ∨
          ((∅ : Finset α)).card < (ends_of cons ({node} : Finset α)).card) := by
        rw [hst, hend]
        simp
      rw [show (2 * cons.length + 2) = 2 * cons.length + 1 + 1 from rfl]
      rw [fc_loop, if_neg hc]
    · intro s hs e hse
      rw [Finset.mem_singleton] at hs
      subst hs
      exact absurd hse (hout e)
    · intro e he
      simp at he
    · intro S0 K0 hn _ _
      exact ⟨Finset.singleton_subset_iff.mpr hn, Finset.empty_subset _⟩

/-- Witness for C6 on a one-edge graph. -/
theorem claim_C6_witness :
    ∃ S K, get_forward_closure "a" [("a", "b")] = some (S, K) ∧
      "a" ∈ S ∧
      (∀ s ∈ S, ∀ e, (s, e) ∈ [("a", "b")] → e ∈ K) ∧
      (∀ e ∈ K, ∀ s, (s, e) ∈ [("a", "b")] → s ∈ S) ∧
      (∀ S0 K0 : Finset String, "a" ∈ S0 →
        (∀ s ∈ S0, ∀ e, (s, e) ∈ [("a", "b")] → e ∈ K0) →
        (∀ e ∈ K0, ∀ s, (s, e) ∈ [("a", "b")] → s ∈ S0) →
        S ⊆ S0 ∧ K ⊆ K0) :=
  claim_C6_forward_closure "a" [("a", "b")]
/-! Determinism of the pipeline in the set-iteration order. -/

def exValD {ε β : Type} (d : β) : Except ε β → β
  | Except.ok y => y
  | Except.error _ => d

theorem mapM_ok_map {α β ε : Type} (d : β) (f : α → Except ε β) :
    ∀ {l : List α} {r : List β}, l.mapM f = Except.ok r →
      (∀ x ∈ l, ∃ y, f x = Except.ok y) ∧
      r = l.map (fun x => exValD d (f x)) := by
  intro l
  induction l with
  | nil =>
    intro r h
    rw [List.mapM_nil] at h
    simp only [pure, Except.pure, Except.ok.injEq] at h
    subst h
    exact ⟨by simp, rfl⟩
  | cons a t ih =>
    intro r h
    rw [List.mapM_cons] at h
    obtain ⟨b, hb, h2⟩ := except_bind_ok h
    obtain ⟨rs, hrs, h3⟩ := except_bind_ok h2
    simp only [pure, Except.pure, Except.ok.injEq] at h3
    subst h3
    obtain ⟨hall, heq⟩ := ih hrs
    refine ⟨?_, ?_⟩
    · intro x hx
      rcases List.mem_cons.mp hx with hxa | hxt
      · exact ⟨b, hxa ▸ hb⟩
      · exact hall x hxt
    · rw [List.map_cons, hb, ← heq]
      rfl

theorem mapM_ok_of_forall {α β ε : Type} (d : β) (f : α → Except ε β) :
    ∀ {l : List α}, (∀ x ∈ l, ∃ y, f x = Except.ok y) →
      l.mapM f = Except.ok (l.map (fun x => exValD d (f x))) := by
  intro l
  induction l with
  | nil =>
    intro _
    rw [List.mapM_nil]
    rfl
  | cons a t ih =>
    intro hall
    obtain ⟨y, hy⟩ := hall a (List.mem_cons_self a t)
    rw [List.mapM_cons, hy]
    have ht := ih (fun x hx => hall x (List.mem_cons_of_mem a hx))
    rw [List.map_cons, hy]
    simp only [Bind.bind, Except.bind, ht, pure, Except.pure, exValD]

theorem foldl_min_le_start : ∀ (l : List Nat) (b : Nat), l.foldl Nat.min b ≤ b := by
  intro l
  induction l with
  | nil => intro b; exact le_refl b
  | cons a t ih =>
    intro b
    exact le_trans (ih (Nat.min b a)) (Nat.min_le_left b a)

theorem foldl_min_le_mem : ∀ (l : List Nat) (b x : Nat), x ∈ l →
    l.foldl Nat.min b ≤ x := by
  intro l
  induction l with
  | nil => intro b x hx; simp at hx
  | cons a t ih =>
    intro b x hx
    rcases List.mem_cons.mp hx with hxa | hxt
    · subst hxa
      exact le_trans (foldl_min_le_start t (Nat.min b x)) (Nat.min_le_right b x)
    · exact ih (Nat.min b a) x hxt

theorem start_le_foldl_max : ∀ (l : List Nat) (b : Nat), b ≤ l.foldl Nat.max b := by
  intro l
  induction l with
  | nil => intro b; exact le_refl b
  | cons a t ih =>
    intro b
    exact le_trans (Nat.le_max_left b a) (ih (Nat.max b a))

theorem mem_le_foldl_max : ∀ (l : List Nat) (b x : Nat), x ∈ l →
    x ≤ l.foldl Nat.max b := by
  intro l
  induction l with
  | nil => intro b x hx; simp at hx
  | cons a t ih =>
    intro b x hx
    rcases List.mem_cons.mp hx with hxa | hxt
    · subst hxa
      exact le_trans (Nat.le_max_right b x) (start_le_foldl_max t (Nat.max b x))
    · exact ih (Nat.max b a) x hxt

/-- If the running minimum and maximum of a nonempty list agree then
every element, start included, equals the start. -/
theorem min_eq_max_all_eq {l : List Nat} {b : Nat}
    (h : l.foldl Nat.min b = l.foldl Nat.max b) :
    ∀ x ∈ b :: l, x = b := by
  intro x hx
  have hb1 : l.foldl Nat.min b ≤ b := foldl_min_le_start l b
  have hb2 : b ≤ l.foldl Nat.max b := start_le_foldl_max l b
  rcases List.mem_cons.mp hx with hxb | hxl
  · exact hxb
  · have h1 : l.foldl Nat.min b ≤ x := foldl_min_le_mem l b x hxl
    have h2 : x ≤ l.foldl Nat.max b := mem_le_foldl_max l b x hxl
    omega

theorem foldl_min_const : ∀ (l : List Nat) (b : Nat), (∀ x ∈ l, x = b) →
    l.foldl Nat.min b = b := by
  intro l
  induction l with
  | nil => intro b _; rfl
  | cons a t ih =>
    intro b hall
    have ha : a = b := hall a (List.mem_cons_self a t)
    subst ha
    have hmm : Nat.min a a = a := by simp [Nat.min_def]
    rw [List.foldl_cons, hmm]
    exact ih a (fun x hx => hall x (List.mem_cons_of_mem a hx))

theorem foldl_max_const : ∀ (l : List Nat) (b : Nat), (∀ x ∈ l, x = b) →
    l.foldl Nat.max b = b := by
  intro l
  induction l with
  | nil => intro b _; rfl
  | cons a t ih =>
    intro b hall
    have ha : a = b := hall a (List.mem_cons_self a t)
    subst ha
    have hmm : Nat.max a a = a := by simp [Nat.max_def]
    rw [List.foldl_cons, hmm]
    exact ih a (fun x hx => hall x (List.mem_cons_of_mem a hx))
theorem remove_all_cons (a : Item) (t rem : List Item) :
    remove_all (a :: t) rem =
      if a ∈ rem then remove_all t (rem.erase a)
      else Except.error LayoutErr.valueErr := by
  unfold remove_all
  rw [List.foldlM_cons]
  by_cases h : a ∈ rem
  · rw [if_pos h, if_pos h]
    rfl
  · rw [if_neg h, if_neg h]
    rfl

/-- Removing a duplicate-free batch succeeds independently of which
member goes first: any member b can be pulled out in front. -/
theorem remove_all_mem_erase {b : Item} :
    ∀ {t rem r : List Item}, t.Nodup → b ∈ t →
      remove_all t rem = Except.ok r →
      b ∈ rem ∧ remove_all (t.erase b) (rem.erase b) = Except.ok r := by
  intro t
  induction t with
  | nil => intro rem r _ hb; simp at hb
  | cons a t ih =>
    intro rem r hnd hb h
    rw [remove_all_cons] at h
    by_cases ha : a ∈ rem
    · rw [if_pos ha] at h
      by_cases hba : b = a
      · subst hba
        rw [List.erase_cons_head]
        exact ⟨ha, h⟩
      · have hbt : b ∈ t := by
          rcases List.mem_cons.mp hb with h1 | h1
          · exact absurd h1 hba
          · exact h1
        obtain ⟨hbr, hrec⟩ := ih (List.Nodup.of_cons hnd) hbt h
        refine ⟨List.mem_of_mem_erase hbr, ?_⟩
        rw [List.erase_cons_tail (by simp [Ne.symm hba]), remove_all_cons,
          if_pos ((List.mem_erase_of_ne (show a ≠ b from Ne.symm hba)).mpr ha)]
        rw [List.erase_comm]
        exact hrec
    · rw [if_neg ha] at h
      exact absurd h (by simp)

theorem remove_all_perm :
    ∀ {t2 t1 rem r : List Item}, t1.Nodup → t1.Perm t2 →
      remove_all t1 rem = Except.ok r → remove_all t2 rem = Except.ok r := by
  intro t2
  induction t2 with
  | nil =>
    intro t1 rem r _ hp h
    rw [List.perm_nil.mp hp] at h
    exact h
  | cons b t2 ih =>
    intro t1 rem r hnd hp h
    have hb : b ∈ t1 := hp.mem_iff.mpr (List.mem_cons_self b t2)
    obtain ⟨hbr, hrec⟩ := remove_all_mem_erase hnd hb h
    have hperase : (t1.erase b).Perm t2 := by
      have h2 := hp.erase b
      rw [List.erase_cons_head] at h2
      exact h2
    rw [remove_all_cons, if_pos hbr]
    exact ih (List.Nodup.erase b hnd) hperase hrec
/-- An enumeration of Python sets is valid when it lists exactly the
members of each set, each once: iteration order alone is unspecified. -/
def valid_enum (enum : Finset Item → List Item) : Prop :=
  ∀ s : Finset Item, (enum s).Nodup ∧ ∀ x : Item, x ∈ enum s ↔ x ∈ s

theorem enum_perm {enum1 enum2 : Finset Item → List Item}
    (h1 : valid_enum enum1) (h2 : valid_enum enum2) (s : Finset Item) :
    (enum1 s).Perm (enum2 s) :=
  (List.perm_ext_iff_of_nodup (h1 s).1 (h2 s).1).mpr
    (fun x => ((h1 s).2 x).trans ((h2 s).2 x).symm)

theorem flatten_perm {l1 l2 : List Item} (h : l1.Perm l2) :
    (flatten l1).Perm (flatten l2) := by
  unfold flatten
  rw [List.flatMap_def, List.flatMap_def]
  exact (h.map Item.paths).flatten

theorem mapM_perm_ok {α β ε : Type} (d : β) (f : α → Except ε β)
    {l1 l2 : List α} (hp : l1.Perm l2) {r1 : List β}
    (hok : l1.mapM f = Except.ok r1) :
    ∃ r2, l2.mapM f = Except.ok r2 ∧ r1.Perm r2 := by
  obtain ⟨hall, heq⟩ := mapM_ok_map d f hok
  refine ⟨_, mapM_ok_of_forall d f (fun x hx => hall x (hp.mem_iff.mpr hx)), ?_⟩
  rw [heq]
  exact hp.map _

/-- mapM over a permuted input: when the first run's results all agree
(running min equals running max), the second run returns the same head
and the same degenerate spread. -/
theorem mapM_head_minmax {α ε : Type} (f : α → Except ε Nat) {l1 l2 : List α}
    (hp : l1.Perm l2) {b : Nat} {bs : List Nat}
    (hok : l1.mapM f = Except.ok (b :: bs))
    (hmm : bs.foldl Nat.min b = bs.foldl Nat.max b) :
    ∃ bs2, l2.mapM f = Except.ok (b :: bs2) ∧
      bs2.foldl Nat.min b = bs2.foldl Nat.max b := by
  obtain ⟨r2, hok2, hperm⟩ := mapM_perm_ok 0 f hp hok
  have hallb : ∀ x ∈ r2, x = b := by
    intro x hx
    exact min_eq_max_all_eq hmm x (hperm.mem_iff.mpr hx)
  cases r2 with
  | nil => exact absurd hperm.length_eq (by simp)
  | cons b2 bs2 =>
    have hb2 : b2 = b := hallb b2 (List.mem_cons_self b2 bs2)
    subst hb2
    refine ⟨bs2, hok2, ?_⟩
    rw [foldl_min_const bs2 b2 (fun x hx => hallb x (List.mem_cons_of_mem b2 hx)),
      foldl_max_const bs2 b2 (fun x hx => hallb x (List.mem_cons_of_mem b2 hx))]

/-- mapM over a permuted input: the running maximum of the results is
unchanged. -/
theorem mapM_foldl_max {α ε : Type} (f : α → Except ε Nat) {l1 l2 : List α}
    (hp : l1.Perm l2) {c : Nat} {cs : List Nat}
    (hok : l1.mapM f = Except.ok (c :: cs)) :
    ∃ c2 cs2, l2.mapM f = Except.ok (c2 :: cs2) ∧
      cs2.foldl Nat.max c2 = cs.foldl Nat.max c := by
  obtain ⟨r2, hok2, hperm⟩ := mapM_perm_ok 0 f hp hok
  cases r2 with
  | nil => exact absurd hperm.length_eq (by simp)
  | cons c2 cs2 =>
    refine ⟨c2, cs2, hok2, ?_⟩
    haveI : RightCommutative Nat.max :=
      ⟨fun b a1 a2 => by simp only [Nat.max_def]; split_ifs <;> omega⟩
    have hz2 : Nat.max 0 c2 = c2 := by simp only [Nat.max_def]; split_ifs <;> omega
    have hz1 : Nat.max 0 c = c := by simp only [Nat.max_def]; split_ifs <;> omega
    have e1 : cs2.foldl Nat.max c2 = (c2 :: cs2).foldl Nat.max 0 := by
      rw [List.foldl_cons, hz2]
    have e2 : cs.foldl Nat.max c = (c :: cs).foldl Nat.max 0 := by
      rw [List.foldl_cons, hz1]
    rw [e1, e2]
    exact (List.Perm.foldl_eq hperm 0).symm

/-- Hub.create depends on the set-iteration order only through values
that are order-invariant, so any valid enumeration reproduces a
successful hub exactly. -/
theorem hub_create_congr {enum1 enum2 : Finset Item → List Item}
    (h1 : valid_enum enum1) (h2 : valid_enum enum2)
    {S K : Finset Item} {layout : LNode}
    {cons : List (NodePath × NodePath)} {h : Hub}
    (hok : hub_create enum1 S K layout cons = Except.ok h) :
    hub_create enum2 S K layout cons = Except.ok h := by
  have hflat : (flatten (enum1 S)).Perm (flatten (enum2 S)) :=
    flatten_perm (enum_perm h1 h2 S)
  have hsortS : sortItems (enum1 S) = sortItems (enum2 S) :=
    insertionSort_item_perm_eq (enum_perm h1 h2 S)
  have hsortK : sortItems (enum1 K) = sortItems (enum2 K) :=
    insertionSort_item_perm_eq (enum_perm h1 h2 K)
  unfold hub_create at hok ⊢
  rw [← hsortS, ← hsortK]
  obtain ⟨btypes, hbt, hok⟩ := except_bind_ok hok
  cases btypes with
  | nil => simp at hok
  | cons b bs =>
    simp only [] at hok
    split at hok
    case isTrue => simp at hok
    case isFalse hne =>
      have hmm : bs.foldl Nat.min b = bs.foldl Nat.max b := not_not.mp hne
      obtain ⟨ctxs, hcx, hok⟩ := except_bind_ok hok
      cases ctxs with
      | nil => simp at hok
      | cons c cs =>
        simp only [] at hok
        split at hok
        case h_1 => simp at hok
        case h_2 res heq =>
          obtain ⟨sizes, hsz, hok⟩ := except_bind_ok hok
          simp only [Except.ok.injEq] at hok
          subst hok
          obtain ⟨bs2, hbt2, hmm2⟩ := mapM_head_minmax _ hflat hbt hmm
          obtain ⟨c2, cs2, hcx2, hcval⟩ := mapM_foldl_max _ hflat hcx
          rw [hbt2]
          simp only [Bind.bind, Except.bind]
          rw [if_neg (not_not_intro hmm2)]
          rw [hcx2]
          simp only [Bind.bind, Except.bind]
          rw [heq]
          simp only []
          simp only [Bind.bind, Except.bind] at hsz
          rw [hsz]
          simp only [pure, Except.pure, hcval]
/-- The hub-grouping loop is insensitive to the set-iteration order:
closures, removals and hub construction all commute with it. -/
theorem group_loop_congr {enum1 enum2 : Finset Item → List Item}
    (h1 : valid_enum enum1) (h2 : valid_enum enum2)
    {layout : LNode} {cons : List (NodePath × NodePath)}
    {mcons : List (Item × Item)} :
    ∀ fuel {rem : List Item} {hubs : List Hub},
      group_loop enum1 layout cons mcons fuel rem = Except.ok hubs →
      group_loop enum2 layout cons mcons fuel rem = Except.ok hubs := by
  intro fuel
  induction fuel with
  | zero =>
    intro rem hubs h
    cases rem with
    | nil => exact h
    | cons a t => exact absurd h (by simp [group_loop])
  | succ fuel ih =>
    intro rem hubs h
    cases rem with
    | nil => exact h
    | cons node rest =>
      simp only [group_loop] at h ⊢
      cases hfc : get_forward_closure node mcons with
      | none =>
        rw [hfc] at h
        simp [Bind.bind, Except.bind] at h
      | some cl =>
        rw [hfc] at h
        simp only [] at h ⊢
        obtain ⟨cl2, hcl, h⟩ := except_bind_ok h
        simp only [Except.ok.injEq] at hcl
        subst hcl
        obtain ⟨rem2, hrm, h⟩ := except_bind_ok h
        obtain ⟨hub, hhub, h⟩ := except_bind_ok h
        obtain ⟨hubs2, hloop, h⟩ := except_bind_ok h
        simp only [pure, Except.pure, Except.ok.injEq] at h
        subst h
        simp only [Bind.bind, Except.bind]
        rw [remove_all_perm ((h1 cl.1).1) (enum_perm h1 h2 cl.1) hrm]
        simp only []
        rw [hub_create_congr h1 h2 hhub]
        simp only []
        rw [ih hloop]
/-- C9: create_layout is deterministic.  The only under-specified part
of the run is the iteration order of the Python sets; any two valid
enumerations of those sets (same members, each listed once) that lead
to success produce the identical hubs list and layout tree, because
every consumer of an enumeration (sorting, batch removal, buffer-type
min/max check, context maximum) is order-invariant. -/
theorem claim_C9_determinism (enum1 enum2 : Finset Item → List Item)
    (layers : List (String × Layer)) (out : List Hub × LNode)
    (h1 : ∀ s : Finset Item, (enum1 s).Nodup ∧ ∀ x : Item, x ∈ enum1 s ↔ x ∈ s)
    (h2 : ∀ s : Finset Item, (enum2 s).Nodup ∧ ∀ x : Item, x ∈ enum2 s ↔ x ∈ s)
    (hok : create_layout enum1 layers = Except.ok out) :
    create_layout enum2 layers = Except.ok out := by
  unfold create_layout at hok ⊢
  obtain ⟨fos, hfos, hok⟩ := except_bind_ok hok
  obtain ⟨sks, hsks, hok⟩ := except_bind_ok hok
  obtain ⟨hubs, hhubs, hok⟩ := except_bind_ok hok
  have hhubs2 : group_into_hubs enum2 sks.2 fos (get_connections layers)
      (create_layout_stub layers) = Except.ok hubs := by
    unfold group_into_hubs at hhubs ⊢
    exact group_loop_congr h1 h2 _ hhubs
  rw [hfos]
  simp only [Bind.bind, Except.bind]
  rw [hsks]
  simp only []
  rw [hhubs2]
  simp only []
  exact hok
theorem default_enum_valid (s : Finset Item) :
    (default_enum s).Nodup ∧ ∀ x : Item, x ∈ default_enum s ↔ x ∈ s := by
  obtain ⟨m, hnd⟩ := s
  revert hnd
  induction m using Quot.ind with
  | _ l =>
  intro hnd
  have hl : l.Nodup := hnd
  refine ⟨(List.perm_insertionSort item_le l).symm.nodup hl, ?_⟩
  intro x
  constructor
  · intro hx
    exact Finset.mem_mk.mpr (Multiset.mem_coe.mpr
      ((List.perm_insertionSort item_le l).mem_iff.mp hx))
  · intro hx
    exact (List.perm_insertionSort item_le l).mem_iff.mpr
      (Multiset.mem_coe.mp (Finset.mem_mk.mp hx))

theorem rev_default_enum_valid (s : Finset Item) :
    ((default_enum s).reverse).Nodup ∧
      ∀ x : Item, x ∈ (default_enum s).reverse ↔ x ∈ s := by
  obtain ⟨hnd, hmem⟩ := default_enum_valid s
  exact ⟨List.nodup_reverse.mpr hnd,
    fun x => List.mem_reverse.trans (hmem x)⟩

def layersW9 : List (String × Layer) :=
  [("A", Layer.mk [] [] [("w", Shape.mk 2 0 0)] [] [])]

def outW9 : List Hub × LNode :=
  exValD ([], LNode.view 0 []) (create_layout default_enum layersW9)
theorem except_eq_ok_exValD {ε α : Type} (d : α) (x : Except ε α)
    (h : except_is_ok x = true) : x = Except.ok (exValD d x) := by
  cases x with
  | ok v => rfl
  | error e => simp [except_is_ok] at h

/-- Witness for C9: the reversed set enumeration reproduces the run of
the sorted enumeration on a one-layer registry. -/
theorem claim_C9_witness :
    create_layout (fun s => (default_enum s).reverse) layersW9 =
      Except.ok outW9 :=
  claim_C9_determinism default_enum (fun s => (default_enum s).reverse)
    layersW9 outW9 default_enum_valid rev_default_enum_valid
    (except_eq_ok_exValD ([], LNode.view 0 [])
      (create_layout default_enum layersW9) (by decide))
